import Mathlib

/-!
Shallow embedding of the apostrophe-pages module (src/index.js).

Strings are modelled as `List Char`; the document store as a `List Page`;
the redirect collection as an association list from old slug to new slug.
External collaborators (the `apos` document store interface, the permission
decision function, `apos.slugify`) are modelled at their interface: the
store's find/update/remove operations are given their MongoDB semantics,
the permission collaborator is an oracle parameter of type
`List Char → Option Page → Bool` (action, subject page — `none` when the
JavaScript code passes `undefined`), and `slugify` is a function parameter.

The opaque content payload (`areas`, per-type sanitized data) is never
inspected by any modelled operation and is omitted from the page record;
sanitizers are modelled by their success/failure alone.
-/

/-- Character-list form of a string literal. -/
def chars (s : String) : List Char := s.toList

/-! ### String helpers -/

/-- Number of '/' characters in a string. -/
def countSlash (l : List Char) : Nat := l.count '/'

/-- JS `s.substr(0, s.lastIndexOf('/'))`: everything before the last '/'
    (empty when there is no '/', matching `substr(0, -1) = ""`). -/
def parentPath (l : List Char) : List Char :=
  ((l.reverse.dropWhile (fun c => c ≠ '/')).drop 1).reverse

/-- The segment after the last '/' (the whole string when there is no '/'). -/
def lastSegment (l : List Char) : List Char :=
  (l.reverse.takeWhile (fun c => c ≠ '/')).reverse

/-- JS `s.split('/')` (keeps empty segments, `"" ↦ [""]`). -/
def splitSlash : List Char → List (List Char)
  | [] => [[]]
  | c :: rest =>
    if c = '/' then [] :: splitSlash rest
    else
      match splitSlash rest with
      | s :: ss => (c :: s) :: ss
      | [] => [[c]]

/-! ### Slug normalization in the edit handler (src/index.js lines 646-654).
The input here is the result of the external `apos.slugify(slug, { allowed: '/' })`. -/

/-- Force a leading '/' (`if (!slug.match(/^\//)) slug = '/' + slug`). -/
def forceLeadingSlash (l : List Char) : List Char :=
  if l.head? = some '/' then l else '/' :: l

/-- Collapse every run of repeated '/' to a single '/' (`replace(/\/+/g, '/')`). -/
def collapseSlashes : List Char → List Char
  | [] => []
  | [c] => [c]
  | c :: d :: rest =>
    if c = '/' ∧ d = '/' then collapseSlashes (d :: rest)
    else c :: collapseSlashes (d :: rest)

/-- Strip one trailing '/' (`replace(/\/$/, '')`). -/
def stripTrailingSlash (l : List Char) : List Char :=
  if l.getLast? = some '/' then l.dropLast else l

/-- The three normalization steps the edit handler applies to the slugified input. -/
def normalizeSlug (l : List Char) : List Char :=
  stripTrailingSlash (collapseSlashes (forceLeadingSlash l))

/-! ### Sorting (model of the store's sort operator) -/

/-- Insert into a sorted list. -/
def insertLe {α : Type} (le : α → α → Bool) (a : α) : List α → List α
  | [] => [a]
  | b :: bs => if le a b then a :: b :: bs else b :: insertLe le a bs

/-- Insertion sort by the comparator `le`. -/
def sortLe {α : Type} (le : α → α → Bool) : List α → List α
  | [] => []
  | a :: as => insertLe le a (sortLe le as)

/-- Lexicographic (byte-wise) string comparison, the store's ascending string sort. -/
def lexLe : List Char → List Char → Bool
  | [], _ => true
  | _ :: _, [] => false
  | a :: as, b :: bs => if a = b then lexLe as bs else decide (a < b)

/-! ### The data model -/

/-- A page document (content payload omitted, see the header comment). -/
structure Page where
  slug : List Char
  path : List Char
  level : Nat
  rank : Nat
  type : List Char
  title : List Char
  deriving DecidableEq, Repr

/-- `apos.getPage` for an exact slug (the form the mutation handlers rely on). -/
def getPage (store : List Page) (slug : List Char) : Option Page :=
  store.find? (fun p => decide (p.slug = slug))

/-- `apos.putPage(slug, page)`: upsert the document keyed by `slug`. -/
def putPage (store : List Page) (slug : List Char) (page : Page) : List Page :=
  if store.any (fun p => decide (p.slug = slug)) then
    store.map (fun p => if p.slug = slug then page else p)
  else store ++ [page]

/-- `apos.pages.update({slug: old}, {$set: {slug: new}})`: rewrite the slug of
    the first document whose slug is `old`. -/
def updateSlug (old new : List Char) : List Page → List Page
  | [] => []
  | p :: rest => if p.slug = old then { p with slug := new } :: rest
                 else p :: updateSlug old new rest

/-- `apos.updateRedirect(from, to)`: upsert the redirect keyed by `from`. -/
def updateRedirect (redirects : List (List Char × List Char))
    (fromSlug toSlug : List Char) : List (List Char × List Char) :=
  if redirects.any (fun r => decide (r.1 = fromSlug)) then
    redirects.map (fun r => if r.1 = fromSlug then (fromSlug, toSlug) else r)
  else redirects ++ [(fromSlug, toSlug)]

/-- `apos.redirects.findOne({from: slug})`. -/
def findRedirect (redirects : List (List Char × List Char))
    (fromSlug : List Char) : Option (List Char) :=
  (redirects.find? (fun r => decide (r.1 = fromSlug))).map (fun r => r.2)

/-! ### getAncestors (src/index.js lines 351-391) -/

/-- The loop over `page.path.split('/')`: accumulate the path, skip the full
    path itself, push every other prefix, and append '/' after a push. -/
def ancestorPathsAux (full : List Char) : List Char → List (List Char) → List (List Char)
  | _, [] => []
  | acc, comp :: rest =>
    let acc2 := acc ++ comp
    if acc2 = full then ancestorPathsAux full acc2 rest
    else acc2 :: ancestorPathsAux full (acc2 ++ ['/']) rest

/-- The list of ancestor paths computed by getAncestors. -/
def ancestorPaths (path : List Char) : List (List Char) :=
  ancestorPathsAux path [] (splitSlash path)

/-- getAncestors: query pages whose path is an ancestor path, sorted by path.
    Returns `none` ("ancestors" stays undefined) when `page.path` is falsy. -/
def getAncestors (store : List Page) (page : Page) : Option (List Page) :=
  if page.path = [] then none
  else some (sortLe (fun a b => lexLe a.path b.path)
    (store.filter (fun p => decide (p.path ∈ ancestorPaths page.path))))

/-! ### getDescendants (src/index.js lines 394-441) -/

/-- Ascending (level, rank) order, the query's sort. -/
def levelRankLe (a b : Page) : Bool :=
  decide (a.level < b.level) || (decide (a.level = b.level) && decide (a.rank ≤ b.rank))

/-- The descendant query: path a strict extension of `page.path ++ "/"`,
    level in `(page.level, page.level + depth]`, sorted by (level, rank). -/
def descendantsQuery (store : List Page) (page : Page) (depth : Nat) : List Page :=
  sortLe levelRankLe
    (store.filter (fun q =>
      (page.path ++ ['/']).isPrefixOf q.path &&
      decide (page.level < q.level) && decide (q.level ≤ page.level + depth)))

/-- The nested result structure: the JavaScript object graph keyed by path
    (`pagesByPath`): the ordered list of top-level page paths, and for every
    processed page the ordered list of the child paths attached to it. -/
structure Forest where
  roots : List (List Char)
  kids : List (List Char × List (List Char))
  deriving DecidableEq, Repr

/-- Association-list lookup by path. -/
def lookupKids (k : List Char) : List (List Char × List (List Char)) → Option (List (List Char))
  | [] => none
  | (k2, v) :: rest => if k2 = k then some v else lookupKids k rest

/-- `pagesByPath[parentPath].children.push(page)`. -/
def attachKid (pp cp : List Char) : List (List Char × List (List Char)) → List (List Char × List (List Char))
  | [] => []
  | (k, cs) :: rest => if k = pp then (k, cs ++ [cp]) :: rest else (k, cs) :: attachKid pp cp rest

/-- The single linear reconstruction pass of getDescendants: register the page
    (with an empty children list), then attach it under `parentPath` when that
    path has been registered, otherwise add it to the top level. -/
def buildForest : List Page → Forest → Forest
  | [], st => st
  | p :: rest, st =>
    let kids0 := st.kids ++ [(p.path, [])]
    let pp := parentPath p.path
    if (lookupKids pp kids0).isSome then
      buildForest rest { roots := st.roots, kids := attachKid pp p.path kids0 }
    else
      buildForest rest { roots := st.roots ++ [p.path], kids := kids0 }

/-- getDescendants: the flat query result and the reconstructed nesting. -/
def getDescendants (store : List Page) (page : Page) (depth : Nat) : List Page × Forest :=
  let q := descendantsQuery store page depth
  (q, buildForest q ⟨[], []⟩)

/-- The `children` array getDescendants hands to its callback: the top-level
    nodes, as pages. -/
def descendantsTop (store : List Page) (page : Page) (depth : Nat) : List Page :=
  let r := getDescendants store page depth
  r.2.roots.filterMap (fun pth => r.1.find? (fun p => decide (p.path = pth)))

/-! ### Page types (src/index.js lines 443-512) -/

/-- A registered page type. A sanitizer, when declared, is modelled by the
    success/failure of running it on the submitted data. -/
structure PageType where
  name : List Char
  sanitize : Option Bool
  deriving DecidableEq, Repr

/-- `self.getType(name)`. -/
def getType (types : List PageType) (name : List Char) : Option PageType :=
  types.find? (fun t => decide (t.name = name))

/-- `determineType(req)`: the submitted type when registered, else the
    registered 'default' type; `none` models the undefined result that makes
    the handlers crash when 'default' itself is unregistered. -/
def determineType (types : List PageType) (typeName : List Char) : Option PageType :=
  match getType types typeName with
  | some t => some t
  | none => getType types (chars "default")

/-- Errors a handler can end with. -/
inductive Err where
  /-- a string error raised inside src/index.js -/
  | msg (s : List Char)
  /-- an error surfaced by the external permission collaborator -/
  | permission
  /-- an error surfaced by a page-type sanitizer -/
  | validation
  /-- a JavaScript runtime crash (reading a property of undefined) -/
  | exn
  deriving DecidableEq, Repr

/-- `addSanitizedTypeData`: run the type's sanitizer when declared. -/
def addSanitizedTypeData (t : PageType) : Except Err Unit :=
  match t.sanitize with
  | none => .ok ()
  | some true => .ok ()
  | some false => .error .validation

/-- JS `title.trim()`. -/
def trim (l : List Char) : List Char :=
  ((l.dropWhile Char.isWhitespace).reverse.dropWhile Char.isWhitespace).reverse

/-! ### The new-page handler (src/index.js lines 543-625) -/

/-- `path.replace('//', '/')`: JS string-pattern replace rewrites only the
    first occurrence. -/
def replaceFirstDoubleSlash : List Char → List Char
  | '/' :: '/' :: rest => '/' :: rest
  | c :: rest => c :: replaceFirstDoubleSlash rest
  | [] => []

/-- `addSlashIfNeeded` in the new handler. -/
def addSlashIfNeeded (path : List Char) : List Char :=
  replaceFirstDoubleSlash (path ++ ['/'])

/-- `getNextRank`: reduce over the children with
    `if (child.rank >= memo) memo = child.rank + 1`, starting from 1. -/
def rankFold (children : List Page) : Nat :=
  children.foldl (fun memo child => if child.rank ≥ memo then child.rank + 1 else memo) 1

/-- The nextRank computed for a parent: the fold over its depth-1 descendants. -/
def getNextRank (store : List Page) (parent : Page) : Nat :=
  rankFold (descendantsTop store parent 1)

/-- POST /apos-pages/new: getParent, permissions, getNextRank, insertPage. -/
def newHandler (types : List PageType) (perm : List Char → Option Page → Bool)
    (slugify : List Char → List Char) (store : List Page)
    (parentSlug titleInput typeName : List Char) : Except Err Page × List Page :=
  let title := if trim titleInput = [] then chars "New Page" else trim titleInput
  match determineType types typeName with
  | none => (.error .exn, store)
  | some t =>
    match getPage store parentSlug with
    | none => (.error (.msg (chars "Bad parent")), store)
    | some parent =>
      if perm (chars "add-page") (some parent) then
        let nextRank := getNextRank store parent
        let page : Page := {
          title := title, type := t.name, level := parent.level + 1,
          path := parent.path ++ ['/'] ++ slugify title,
          slug := addSlashIfNeeded parentSlug ++ slugify title,
          rank := nextRank }
        match addSanitizedTypeData t with
        | .error e => (.error e, store)
        | .ok _ => (.ok page, putPage store page.slug page)
      else (.error .permission, store)

/-! ### The edit handler (src/index.js lines 627-735) -/

/-- `descendant.slug.replace(/^originalSlug\//, newSlug + '/')`. -/
def rewriteSlug (originalSlug newSlug s : List Char) : List Char :=
  if (originalSlug ++ ['/']).isPrefixOf s then newSlug ++ ['/'] ++ s.drop (originalSlug.length + 1)
  else s

/-- The `async.mapSeries` of updateDescendants: one `update` per fetched
    descendant, applied sequentially; also records the (old, new) writes. -/
def cascade (originalSlug newSlug : List Char) :
    List Page → List Page → List Page × List (List Char × List Char)
  | [], store => (store, [])
  | d :: rest, store =>
    let n := rewriteSlug originalSlug newSlug d.slug
    let r := cascade originalSlug newSlug rest (updateSlug d.slug n store)
    (r.1, (d.slug, n) :: r.2)

/-- `updateDescendants`: skipped when the slug is unchanged, otherwise fetch
    every page whose slug extends `originalSlug + '/'` and rewrite each. -/
def updateDescendantsStep (originalSlug newSlug : List Char) (store : List Page) :
    List Page × List (List Char × List Char) :=
  if originalSlug = newSlug then (store, [])
  else cascade originalSlug newSlug
    (store.filter (fun d => (originalSlug ++ ['/']).isPrefixOf d.slug)) store

instance instDecEqExcept {ε α : Type} [DecidableEq ε] [DecidableEq α] :
    DecidableEq (Except ε α) := fun a b =>
  match a, b with
  | .ok x, .ok y =>
    if h : x = y then isTrue (congrArg Except.ok h)
    else isFalse (fun he => h (Except.ok.inj he))
  | .error x, .error y =>
    if h : x = y then isTrue (congrArg Except.error h)
    else isFalse (fun he => h (Except.error.inj he))
  | .ok _, .error _ => isFalse (fun he => Except.noConfusion he)
  | .error _, .ok _ => isFalse (fun he => Except.noConfusion he)

/-- Everything the edit handler leaves behind. -/
structure EditOutcome where
  result : Except Err Page
  store : List Page
  redirects : List (List Char × List Char)
  writes : List (List Char × List Char)
  deriving DecidableEq, Repr

/-- POST /apos-pages/edit: getPage, permissions, updatePage, redirect,
    updateDescendants. -/
def editHandler (types : List PageType) (perm : List Char → Option Page → Bool)
    (slugify : List Char → List Char) (store : List Page)
    (redirects : List (List Char × List Char))
    (originalSlug slugInput titleInput typeName : List Char) : EditOutcome :=
  let title := if trim titleInput = [] then chars "Untitled Page" else trim titleInput
  match determineType types typeName with
  | none => ⟨.error .exn, store, redirects, []⟩
  | some t =>
    let slug := normalizeSlug (slugify slugInput)
    match getPage store originalSlug with
    | none => ⟨.error (.msg (chars "Bad page")), store, redirects, []⟩
    | some page =>
      if perm (chars "edit") (some page) then
        let page2 := { page with title := title, slug := slug, type := t.name }
        if slug ≠ originalSlug ∧ originalSlug = chars "/" then
          ⟨.error (.msg (chars "Cannot change the slug of the home page")), store, redirects, []⟩
        else
          match addSanitizedTypeData t with
          | .error e => ⟨.error e, store, redirects, []⟩
          | .ok _ =>
            let store1 := putPage store originalSlug page2
            let redirects1 := updateRedirect redirects originalSlug slug
            let r := updateDescendantsStep originalSlug slug store1
            ⟨.ok page2, r.1, redirects1, r.2⟩
      else ⟨.error .permission, store, redirects, []⟩

/-! ### The delete handler (src/index.js lines 737-800) -/

/-- POST /apos-pages/delete: getPage, permissions, getParent, checkChildren,
    deletePage. The permission step runs before getParent, so the subject
    handed to the permission collaborator is still undefined (`none`). -/
def deleteHandler (perm : List Char → Option Page → Bool) (store : List Page)
    (slugReq : List Char) : Except Err (List Char) × List Page :=
  match getPage store slugReq with
  | none => (.error (.msg (chars "Not Found")), store)
  | some page =>
    if perm (chars "add-page") none then
      match getAncestors store page with
      | none => (.error .exn, store)
      | some ancestors =>
        if ancestors = [] then (.error (.msg (chars "Cannot remove home page")), store)
        else
          match ancestors.getLast? with
          | none => (.error .exn, store)
          | some parent =>
            if descendantsTop store page 1 = [] then
              (.ok parent.slug, store.filter (fun p => ¬ p.slug = page.slug))
            else (.error (.msg (chars "Remove child pages first")), store)
    else (.error .permission, store)

/-! ### Request resolution (src/index.js serve, lines 115-347) -/

/-- The request state entering `main`. -/
structure ServeState where
  loaderType : Option (List Char)
  err : Bool
  loginRequired : Bool
  insufficient : Bool
  page : Option Page
  deriving Repr

/-- The outcome `main` selects: template type, status code, and whether the
    page object is exposed to the template. -/
structure Outcome where
  type : List Char
  statusCode : Nat
  providePage : Bool
  deriving DecidableEq, Repr

/-- JS truthiness of `req.type`. -/
def truthy : Option (List Char) → Bool
  | some t => !t.isEmpty
  | none => false

/-- `main(err)` in serve: final outcome selection. -/
def mainOutcome (types : List PageType) (s : ServeState) : Outcome :=
  if truthy s.loaderType then
    { type := s.loaderType.getD [], statusCode := 200, providePage := true }
  else if s.err then
    { type := chars "serverError", statusCode := 500, providePage := false }
  else if s.loginRequired then
    { type := chars "loginRequired", statusCode := 200, providePage := false }
  else if s.insufficient then
    { type := chars "insufficient", statusCode := 200, providePage := false }
  else
    match s.page with
    | some pg =>
      { type := if types.any (fun t => decide (t.name = pg.type)) then pg.type
                else chars "default",
        statusCode := 200, providePage := true }
    | none => { type := chars "notfound", statusCode := 404, providePage := false }

/-- `checkView`: a view-page refusal sets loginRequired for anonymous users and
    insufficient for authenticated ones. Returns (loginRequired, insufficient). -/
def checkViewFlags (hasUser viewAllowed : Bool) : Bool × Bool :=
  if viewAllowed then (false, false)
  else if hasUser then (false, true) else (true, false)

/-- The serve pipeline's outcome given the resolution results: the view
    permission flags are only computed when a best page exists. -/
def serveOutcome (types : List PageType) (bestPage page : Option Page)
    (hasUser viewAllowed loadErr : Bool) (loaderType : Option (List Char)) : Outcome :=
  let flags := match bestPage with
    | some _ => checkViewFlags hasUser viewAllowed
    | none => (false, false)
  mainOutcome types ⟨loaderType, loadErr, flags.1, flags.2, page⟩

/-- Sequential insertion of a batch of child pages under one parent, each via
    the new-page handler (the no-concurrency scenario of the spec). -/
def insertSeq (types : List PageType) (perm : List Char → Option Page → Bool)
    (slugify : List Char → List Char) (parentSlug typeName : List Char) :
    List Page → List (List Char) → List (Except Err Page) × List Page
  | store, [] => ([], store)
  | store, t :: ts =>
    let r := newHandler types perm slugify store parentSlug t typeName
    let rest := insertSeq types perm slugify parentSlug typeName r.2 ts
    (r.1 :: rest.1, rest.2)

/-- The page record the new-page handler builds for title `ti` at rank `r`
    (title assumed already trimmed and non-empty). -/
def mkKid (slugify : List Char → List Char) (parentSlug : List Char) (parent : Page)
    (tname : List Char) (r : Nat) (ti : List Char) : Page :=
  { title := ti, type := tname, level := parent.level + 1,
    path := parent.path ++ ['/'] ++ slugify ti,
    slug := addSlashIfNeeded parentSlug ++ slugify ti, rank := r }

/-- The children created by a sequential batch of inserts, ranks counting up
    from `r`. -/
def kidsFrom (slugify : List Char → List Char) (parentSlug : List Char) (parent : Page)
    (tname : List Char) : Nat → List (List Char) → List Page
  | _, [] => []
  | r, ti :: ts => mkKid slugify parentSlug parent tname r ti ::
      kidsFrom slugify parentSlug parent tname (r + 1) ts

/-! ### Derived notions used by the claims -/

/-- Invariant (a) of the data model for one page: its path is the path of a
    stored parent plus '/' plus its own slug segment. -/
def pathSlugAligned (store : List Page) (p : Page) : Prop :=
  ∃ par ∈ store, par.path = parentPath p.path ∧
    p.path = par.path ++ ['/'] ++ lastSegment p.slug

instance (store : List Page) (p : Page) : Decidable (pathSlugAligned store p) := by
  unfold pathSlugAligned; infer_instance

/-! ### Concrete example data (shared by several claims) -/

/-- The home page of the running example. -/
def exHome : Page := ⟨chars "/", chars "home", 0, 0, chars "home", chars "Home"⟩

/-- Child page /a of the running example. -/
def exA : Page := ⟨chars "/a", chars "home/a", 1, 1, chars "default", chars "A"⟩

/-- Grandchild page /a/b of the running example. -/
def exAB : Page := ⟨chars "/a/b", chars "home/a/b", 2, 1, chars "default", chars "B"⟩

/-- Child page /c of the running example. -/
def exC : Page := ⟨chars "/c", chars "home/c", 1, 2, chars "default", chars "C"⟩

/-- A four-page store: home with children /a, /c and grandchild /a/b. -/
def exStore : List Page := [exHome, exA, exAB, exC]

/-- A permission oracle that always grants. -/
def permTrue : List Char → Option Page → Bool := fun _ _ => true

/-- A permission oracle that grants exactly when the subject page is absent
    (accepts an undefined subject, refuses every actual page). -/
def denyOnPages : List Char → Option Page → Bool := fun _ subj => subj.isNone

/-- The default type registry. -/
def defaultTypes : List PageType := [⟨chars "default", none⟩]

/-! ### Generic lemmas about the sorting model -/

theorem insertLe_perm {α : Type} (le : α → α → Bool) (a : α) (l : List α) :
    List.Perm (insertLe le a l) (a :: l) := by
  induction l with
  | nil => simp [insertLe]
  | cons b bs ih =>
    simp only [insertLe]
    split
    · exact List.Perm.refl _
    · exact (ih.cons b).trans (List.Perm.swap a b bs)

theorem sortLe_perm {α : Type} (le : α → α → Bool) (l : List α) :
    List.Perm (sortLe le l) l := by
  induction l with
  | nil => simp [sortLe]
  | cons a as ih => exact (insertLe_perm le a (sortLe le as)).trans (ih.cons a)

theorem insertLe_pairwise {α : Type} (le : α → α → Bool)
    (htot : ∀ x y, le x y = true ∨ le y x = true)
    (htrans : ∀ x y z, le x y = true → le y z = true → le x z = true)
    (a : α) (l : List α) (hl : l.Pairwise (fun x y => le x y = true)) :
    (insertLe le a l).Pairwise (fun x y => le x y = true) := by
  induction l with
  | nil => simp [insertLe]
  | cons b bs ih =>
    rw [List.pairwise_cons] at hl
    obtain ⟨hb, hbs⟩ := hl
    simp only [insertLe]
    split
    · rename_i hab
      refine List.pairwise_cons.mpr ⟨?_, List.pairwise_cons.mpr ⟨hb, hbs⟩⟩
      intro x hx
      rcases List.mem_cons.mp hx with h | h
      · exact h ▸ hab
      · exact htrans a b x hab (hb x h)
    · rename_i hab
      refine List.pairwise_cons.mpr ⟨?_, ih hbs⟩
      intro x hx
      rcases List.mem_cons.mp ((insertLe_perm le a bs).mem_iff.mp hx) with rfl | h
      · rcases htot x b with h1 | h1
        · exact absurd h1 hab
        · exact h1
      · exact hb x h

theorem sortLe_pairwise {α : Type} (le : α → α → Bool)
    (htot : ∀ x y, le x y = true ∨ le y x = true)
    (htrans : ∀ x y z, le x y = true → le y z = true → le x z = true)
    (l : List α) : (sortLe le l).Pairwise (fun x y => le x y = true) := by
  induction l with
  | nil => simp [sortLe]
  | cons a as ih => exact insertLe_pairwise le htot htrans a (sortLe le as) ih

theorem pairwise_comparable {α : Type} {R : α → α → Prop} {l : List α}
    (h : l.Pairwise R) : ∀ x ∈ l, ∀ y ∈ l, x = y ∨ R x y ∨ R y x := by
  induction l with
  | nil => intro x hx; cases hx
  | cons a as ih =>
    rw [List.pairwise_cons] at h
    intro x hx y hy
    rcases List.mem_cons.mp hx with hx | hx <;> rcases List.mem_cons.mp hy with hy | hy
    · exact Or.inl (hx.trans hy.symm)
    · exact Or.inr (Or.inl (hx ▸ h.1 y hy))
    · exact Or.inr (Or.inr (hy ▸ h.1 x hx))
    · exact ih h.2 x hx y hy

/-! ### Lemmas about lexicographic comparison -/

theorem lexLe_total : ∀ a b : List Char, lexLe a b = true ∨ lexLe b a = true := by
  intro a
  induction a with
  | nil => intro b; left; rfl
  | cons x xs ih =>
    intro b
    cases b with
    | nil => right; rfl
    | cons y ys =>
      by_cases hxy : x = y
      · subst hxy
        simpa only [lexLe, if_pos rfl] using ih ys
      · rcases lt_or_gt_of_ne hxy with h | h
        · left; simp [lexLe, hxy, h]
        · right; simp [lexLe, Ne.symm hxy, h]

theorem lexLe_trans : ∀ a b c : List Char,
    lexLe a b = true → lexLe b c = true → lexLe a c = true := by
  intro a
  induction a with
  | nil => intro b c _ _; rfl
  | cons x xs ih =>
    intro b c hab hbc
    cases b with
    | nil => simp [lexLe] at hab
    | cons y ys =>
      cases c with
      | nil => simp [lexLe] at hbc
      | cons z zs =>
        by_cases hxy : x = y <;> by_cases hyz : y = z
        · subst hxy; subst hyz
          simp only [lexLe, if_pos rfl] at hab hbc ⊢
          exact ih ys zs hab hbc
        · subst hxy
          simp only [lexLe, if_pos rfl] at hab
          simp only [lexLe, if_neg hyz, decide_eq_true_eq] at hbc
          simp [lexLe, hyz, hbc]
        · subst hyz
          simp only [lexLe, if_neg hxy, decide_eq_true_eq] at hab
          simp [lexLe, hxy, hab]
        · simp only [lexLe, if_neg hxy, decide_eq_true_eq] at hab
          simp only [lexLe, if_neg hyz, decide_eq_true_eq] at hbc
          have hxz : x < z := lt_trans hab hbc
          simp [lexLe, ne_of_lt hxz, hxz]

theorem lexLe_append : ∀ a t : List Char, lexLe (a ++ t) a = true → t = [] := by
  intro a
  induction a with
  | nil =>
    intro t h
    cases t with
    | nil => rfl
    | cons c cs => simp [lexLe] at h
  | cons x xs ih =>
    intro t h
    simp only [List.cons_append, lexLe, if_pos rfl] at h
    exact ih t h

/-! ### Lemmas about slug normalization -/

theorem collapseSlashes_head : ∀ l : List Char, (collapseSlashes l).head? = l.head? := by
  intro l
  induction l using collapseSlashes.induct with
  | case1 => rfl
  | case2 c => rfl
  | case3 c d rest hcd ih =>
    obtain ⟨hc, hd⟩ := hcd
    subst hc; subst hd
    simpa [collapseSlashes] using ih
  | case4 c d rest hcd ih =>
    simp [collapseSlashes, hcd]

theorem collapseSlashes_chain :
    ∀ l : List Char, List.Chain' (fun a b => ¬(a = '/' ∧ b = '/')) (collapseSlashes l) := by
  intro l
  induction l using collapseSlashes.induct with
  | case1 => simp [collapseSlashes]
  | case2 c => simp [collapseSlashes]
  | case3 c d rest hcd ih =>
    simpa [collapseSlashes, hcd] using ih
  | case4 c d rest hcd ih =>
    rw [collapseSlashes, if_neg hcd]
    refine List.chain'_cons'.mpr ⟨?_, ih⟩
    intro y hy
    rw [collapseSlashes_head (d :: rest)] at hy
    simp only [List.head?_cons, Option.mem_def, Option.some.injEq] at hy
    subst hy
    exact hcd

theorem chain'_dropLast {α : Type} {R : α → α → Prop} {l : List α}
    (h : List.Chain' R l) : List.Chain' R l.dropLast := by
  by_cases hne : l = []
  · subst hne; simp
  · have hd := List.dropLast_append_getLast hne
    rw [← hd] at h
    exact (List.chain'_append.mp h).1

theorem stripTrailingSlash_getLast (l : List Char)
    (hch : List.Chain' (fun a b => ¬(a = '/' ∧ b = '/')) l) :
    (stripTrailingSlash l).getLast? ≠ some '/' := by
  unfold stripTrailingSlash
  split
  · rename_i hlast
    have hne : l ≠ [] := by
      intro h; subst h; simp at hlast
    have hl' : l.getLast hne = '/' := by
      have hg := List.getLast?_eq_getLast l hne
      rw [hg] at hlast
      exact Option.some.inj hlast
    intro hbad
    have hd := List.dropLast_append_getLast hne
    rw [← hd] at hch
    rw [List.chain'_append] at hch
    obtain ⟨-, -, h3⟩ := hch
    exact h3 '/' hbad (l.getLast hne) (by simp) ⟨rfl, hl'⟩
  · rename_i hlast
    exact hlast

theorem normalizeSlug_head (l : List Char) :
    normalizeSlug l = [] ∨ (normalizeSlug l).head? = some '/' := by
  have h1 : (forceLeadingSlash l).head? = some '/' := by
    unfold forceLeadingSlash
    split
    · assumption
    · rfl
  have h2 : (collapseSlashes (forceLeadingSlash l)).head? = some '/' := by
    rw [collapseSlashes_head]; exact h1
  unfold normalizeSlug stripTrailingSlash
  split
  · obtain ⟨c, t, hct⟩ : ∃ c t, collapseSlashes (forceLeadingSlash l) = c :: t := by
      cases hm : collapseSlashes (forceLeadingSlash l) with
      | nil => rw [hm] at h2; simp at h2
      | cons c t => exact ⟨c, t, rfl⟩
    have hc : c = '/' := by
      rw [hct] at h2; simpa using h2
    cases t with
    | nil => left; rw [hct]; rfl
    | cons u v =>
      right
      subst hc
      rw [hct]
      simp
  · right; exact h2

/-- C4: the claim as stated is false — the root slug input '/' does not stay
    '/' after normalization; the unconditional trailing-slash strip turns it
    into the empty string. -/
theorem C4_root_slug_counterexample :
    normalizeSlug (chars "/") = [] ∧ normalizeSlug (chars "/") ≠ chars "/" := by decide

/-- C4 (amended): the edit handler normalizes the slugified input by forcing a
    leading '/', collapsing runs of '/', and stripping one trailing '/',
    applied unconditionally — there is no root exception, so the input '/'
    normalizes to the empty string. The result is empty or starts with '/',
    never contains '//', and never ends with '/'. -/
theorem C4_normalizeSlug_amended (l : List Char) :
    normalizeSlug (chars "/") = [] ∧
    (normalizeSlug l = [] ∨ (normalizeSlug l).head? = some '/') ∧
    List.Chain' (fun a b => ¬(a = '/' ∧ b = '/')) (normalizeSlug l) ∧
    (normalizeSlug l).getLast? ≠ some '/' := by
  refine ⟨by decide, normalizeSlug_head l, ?_, ?_⟩
  · unfold normalizeSlug stripTrailingSlash
    split
    · exact chain'_dropLast (collapseSlashes_chain _)
    · exact collapseSlashes_chain _
  · exact stripTrailingSlash_getLast _ (collapseSlashes_chain _)

/-- C2: evidence for the code bug — in the delete handler the permission step
    runs before getParent, so 'add-page' is checked with an undefined subject.
    With an oracle that refuses every actual page (in particular the parent,
    exHome) but accepts an absent subject, deleting /c nevertheless succeeds
    and removes the page, where the claim demands a permission failure. -/
theorem C2_delete_permission_subject_undefined :
    denyOnPages (chars "add-page") (some exHome) = false ∧
    deleteHandler denyOnPages exStore (chars "/c") =
      (Except.ok (chars "/"), [exHome, exA, exAB]) := by decide

/-- C1: counterexample — renaming /a to /x succeeds and changes the slug, the
    store satisfied invariant (a) beforehand for /a and /a/b, yet afterwards
    the renamed page (now /x) still has path 'home/a': its path does not end
    in its new slug segment, so path and slug are no longer in lockstep. -/
theorem C1_path_slug_lockstep_counterexample :
    (editHandler defaultTypes permTrue id exStore []
        (chars "/a") (chars "/x") (chars "A2") (chars "default")).result =
      Except.ok { exA with title := chars "A2", slug := chars "/x", type := chars "default" } ∧
    chars "/x" ≠ chars "/a" ∧
    pathSlugAligned exStore exA ∧ pathSlugAligned exStore exAB ∧
    ∀ q ∈ (editHandler defaultTypes permTrue id exStore []
        (chars "/a") (chars "/x") (chars "A2") (chars "default")).store,
      q.slug = chars "/x" → ¬ pathSlugAligned
        (editHandler defaultTypes permTrue id exStore []
          (chars "/a") (chars "/x") (chars "A2") (chars "default")).store q := by
  decide

/-! ### Path preservation by the edit handler -/

theorem updateSlug_map_path (old new : List Char) :
    ∀ l : List Page, (updateSlug old new l).map (fun p => p.path) = l.map (fun p => p.path) := by
  intro l
  induction l with
  | nil => rfl
  | cons p rest ih =>
    simp only [updateSlug]
    split
    · simp
    · simpa using ih

theorem cascade_map_path (o n : List Char) :
    ∀ (ds : List Page) (store : List Page),
      ((cascade o n ds store).1).map (fun p => p.path) = store.map (fun p => p.path) := by
  intro ds
  induction ds with
  | nil => intro store; rfl
  | cons d rest ih =>
    intro store
    simp only [cascade]
    rw [ih, updateSlug_map_path]

theorem putPage_map_path (store : List Page) (o : List Char) (page page2 : Page)
    (hnodup : (store.map (fun p => p.slug)).Nodup)
    (hpg : getPage store o = some page) (hpath : page2.path = page.path) :
    (putPage store o page2).map (fun p => p.path) = store.map (fun p => p.path) := by
  have hmem : page ∈ store := List.mem_of_find?_eq_some hpg
  have hps : page.slug = o := by
    have := List.find?_some hpg
    simpa using this
  unfold putPage
  rw [if_pos]
  · rw [List.map_map]
    refine List.map_congr_left ?_
    intro p hp
    simp only [Function.comp_apply]
    split
    · rename_i hpo
      have hpp : p = page := by
        refine List.inj_on_of_nodup_map hnodup hp hmem ?_
        rw [hpo, hps]
      rw [hpath, hpp]
    · rfl
  · rw [List.any_eq_true]
    exact ⟨page, hmem, by simp [hps]⟩

/-- C1 (amended): the edit (rename) operation updates the renamed page's slug
    and its descendants' slugs, but never writes any page's `path`: after any
    edit, successful or not, every page's path is exactly what it was before.
    In particular, after a slug-changing rename the renamed page's path still
    ends in the old slug segment, so invariant (a) relating `path` to the new
    slug fails rather than holds. -/
theorem C1_path_never_updated (types : List PageType)
    (perm : List Char → Option Page → Bool) (slugify : List Char → List Char)
    (store : List Page) (redirects : List (List Char × List Char))
    (o s ti tn : List Char)
    (hnodup : (store.map (fun p => p.slug)).Nodup) :
    ((editHandler types perm slugify store redirects o s ti tn).store.map (fun p => p.path))
      = store.map (fun p => p.path) := by
  unfold editHandler
  cases hdt : determineType types tn with
  | none => rfl
  | some t =>
    cases hpg : getPage store o with
    | none => rfl
    | some page =>
      simp only
      split
      · split
        · rfl
        · cases hsan : addSanitizedTypeData t with
          | error e => rfl
          | ok u =>
            simp only [updateDescendantsStep]
            have hput : (putPage store o
                { page with title := (if trim ti = [] then chars "Untitled Page" else trim ti),
                            slug := normalizeSlug (slugify s),
                            type := t.name }).map (fun p => p.path)
                = store.map (fun p => p.path) :=
              putPage_map_path store o page _ hnodup hpg rfl
            split
            · exact hput
            · rw [cascade_map_path, hput]
      · rfl

/-- Witness for C1_path_never_updated at a concrete rename. -/
theorem C1_path_never_updated_witness :
    ((editHandler defaultTypes permTrue id exStore []
        (chars "/a") (chars "/x") (chars "A2") (chars "default")).store.map (fun p => p.path))
      = exStore.map (fun p => p.path) :=
  C1_path_never_updated defaultTypes permTrue id exStore []
    (chars "/a") (chars "/x") (chars "A2") (chars "default") (by decide)

/-- C7: a delete request on a page with at least one depth-1 descendant leaves
    the store unchanged, and — when the permission step grants and the page is
    not the root — fails with exactly the 'Remove child pages first' error. -/
theorem C7_delete_hasChildren_no_mutation (perm : List Char → Option Page → Bool)
    (store : List Page) (s : List Char) (page : Page)
    (hfind : getPage store s = some page)
    (hdesc : descendantsTop store page 1 ≠ []) :
    (deleteHandler perm store s).2 = store ∧
    (perm (chars "add-page") none = true →
      ∀ ancestors, getAncestors store page = some ancestors → ancestors ≠ [] →
        (deleteHandler perm store s).1 =
          Except.error (Err.msg (chars "Remove child pages first"))) := by
  unfold deleteHandler
  rw [hfind]
  dsimp only
  by_cases hp : perm (chars "add-page") none = true
  · rw [if_pos hp]
    cases hanc : getAncestors store page with
    | none =>
      dsimp only
      exact ⟨rfl, fun _ anc hsome => by cases hsome⟩
    | some ancestors =>
      dsimp only
      by_cases hae : ancestors = []
      · rw [if_pos hae]
        refine ⟨rfl, ?_⟩
        intro _ anc hsome hne
        cases hsome
        exact absurd hae hne
      · rw [if_neg hae]
        cases hgl : ancestors.getLast? with
        | none => exact absurd (List.getLast?_eq_none_iff.mp hgl) hae
        | some parent =>
          dsimp only
          rw [if_neg hdesc]
          exact ⟨rfl, fun _ _ _ _ => rfl⟩
  · rw [if_neg hp]
    refine ⟨rfl, ?_⟩
    intro hp2
    exact absurd hp2 hp

/-- Witness for C7 at a concrete delete of /a (which has child /a/b). -/
theorem C7_delete_hasChildren_witness :
    (deleteHandler permTrue exStore (chars "/a")).2 = exStore ∧
    (deleteHandler permTrue exStore (chars "/a")).1 =
      Except.error (Err.msg (chars "Remove child pages first")) := by
  have h := C7_delete_hasChildren_no_mutation permTrue exStore (chars "/a") exA
    (by decide) (by decide)
  exact ⟨h.1, h.2 (by decide) [exHome] (by decide) (by decide)⟩

/-! ### Request outcome selection -/

theorem getType_any (types : List PageType) (n : List Char) :
    (types.any (fun x => decide (x.name = n)) = true) ↔ getType types n ≠ none := by
  rw [List.any_eq_true]
  unfold getType
  constructor
  · rintro ⟨x, hx, hn⟩ hfind
    rw [List.find?_eq_none] at hfind
    exact (hfind x hx) hn
  · intro h
    cases hf : types.find? (fun t => decide (t.name = n)) with
    | none => exact absurd hf h
    | some x =>
      refine ⟨x, List.mem_of_find?_eq_some hf, ?_⟩
      have hx := List.find?_some hf
      simpa using hx

/-- C9: the serve pipeline's final outcome selection follows the priority
    order: a loader-set type wins over everything; otherwise an error gives
    the serverError outcome with status 500; otherwise an unauthenticated
    view refusal gives loginRequired; otherwise an authenticated refusal
    gives insufficient; otherwise an exact page is rendered under its own
    registered type, or 'default' when its type is unregistered; otherwise
    notfound with status 404. -/
theorem C9_outcome_priority (types : List PageType) (bestPage page : Option Page)
    (hasUser viewAllowed loadErr : Bool) (loaderType : Option (List Char)) :
    (∀ t, loaderType = some t → t ≠ [] →
      serveOutcome types bestPage page hasUser viewAllowed loadErr loaderType =
        ⟨t, 200, true⟩) ∧
    (truthy loaderType = false → loadErr = true →
      serveOutcome types bestPage page hasUser viewAllowed loadErr loaderType =
        ⟨chars "serverError", 500, false⟩) ∧
    (truthy loaderType = false → loadErr = false → bestPage ≠ none →
      viewAllowed = false → hasUser = false →
      serveOutcome types bestPage page hasUser viewAllowed loadErr loaderType =
        ⟨chars "loginRequired", 200, false⟩) ∧
    (truthy loaderType = false → loadErr = false → bestPage ≠ none →
      viewAllowed = false → hasUser = true →
      serveOutcome types bestPage page hasUser viewAllowed loadErr loaderType =
        ⟨chars "insufficient", 200, false⟩) ∧
    (∀ pg, truthy loaderType = false → loadErr = false →
      (bestPage = none ∨ viewAllowed = true) → page = some pg →
      getType types pg.type ≠ none →
      serveOutcome types bestPage page hasUser viewAllowed loadErr loaderType =
        ⟨pg.type, 200, true⟩) ∧
    (∀ pg, truthy loaderType = false → loadErr = false →
      (bestPage = none ∨ viewAllowed = true) → page = some pg →
      getType types pg.type = none →
      serveOutcome types bestPage page hasUser viewAllowed loadErr loaderType =
        ⟨chars "default", 200, true⟩) ∧
    (truthy loaderType = false → loadErr = false →
      (bestPage = none ∨ viewAllowed = true) → page = none →
      serveOutcome types bestPage page hasUser viewAllowed loadErr loaderType =
        ⟨chars "notfound", 404, false⟩) := by
  refine ⟨?_, ?_, ?_, ?_, ?_, ?_, ?_⟩
  · rintro t rfl ht
    have htr : truthy (some t) = true := by
      simp [truthy, List.isEmpty_iff, ht]
    simp [serveOutcome, mainOutcome, htr]
  · intro htr herr
    subst herr
    simp [serveOutcome, mainOutcome, htr]
  · intro htr herr hbp hview huser
    subst herr; subst hview; subst huser
    cases bestPage with
    | none => exact absurd rfl hbp
    | some bp => simp [serveOutcome, mainOutcome, checkViewFlags, htr]
  · intro htr herr hbp hview huser
    subst herr; subst hview; subst huser
    cases bestPage with
    | none => exact absurd rfl hbp
    | some bp => simp [serveOutcome, mainOutcome, checkViewFlags, htr]
  · rintro pg htr herr hflags rfl hreg
    have hany : types.any (fun x => decide (x.name = pg.type)) = true :=
      (getType_any types pg.type).mpr hreg
    subst herr
    rcases hflags with rfl | rfl
    · simp [serveOutcome, mainOutcome, checkViewFlags, htr, hany]
    · cases bestPage with
      | none => simp [serveOutcome, mainOutcome, checkViewFlags, htr, hany]
      | some bp => simp [serveOutcome, mainOutcome, checkViewFlags, htr, hany]
  · rintro pg htr herr hflags rfl hreg
    have hany : types.any (fun x => decide (x.name = pg.type)) = false := by
      rw [← Bool.not_eq_true]
      intro hh
      exact ((getType_any types pg.type).mp hh) hreg
    subst herr
    rcases hflags with rfl | rfl
    · simp [serveOutcome, mainOutcome, checkViewFlags, htr, hany]
    · cases bestPage with
      | none => simp [serveOutcome, mainOutcome, checkViewFlags, htr, hany]
      | some bp => simp [serveOutcome, mainOutcome, checkViewFlags, htr, hany]
  · intro htr herr hflags hpg
    subst herr; subst hpg
    rcases hflags with rfl | rfl
    · simp [serveOutcome, mainOutcome, checkViewFlags, htr]
    · cases bestPage with
      | none => simp [serveOutcome, mainOutcome, checkViewFlags, htr]
      | some bp => simp [serveOutcome, mainOutcome, checkViewFlags, htr]

/-- Witness for C9 at concrete requests: an anonymous view refusal yields
    loginRequired, an authenticated one yields insufficient, and with no best
    page and no exact page the outcome is notfound with status 404. -/
theorem C9_outcome_priority_witness :
    serveOutcome defaultTypes (some exA) (some exA) false false false none =
      ⟨chars "loginRequired", 200, false⟩ ∧
    serveOutcome defaultTypes (some exA) (some exA) true false false none =
      ⟨chars "insufficient", 200, false⟩ ∧
    serveOutcome defaultTypes none none false true false none =
      ⟨chars "notfound", 404, false⟩ := by
  refine ⟨?_, ?_, ?_⟩
  · exact (C9_outcome_priority defaultTypes (some exA) (some exA) false false false
      none).2.2.1 rfl rfl (by simp) rfl rfl
  · exact (C9_outcome_priority defaultTypes (some exA) (some exA) true false false
      none).2.2.2.1 rfl rfl (by simp) rfl rfl
  · exact (C9_outcome_priority defaultTypes none none false true false
      none).2.2.2.2.2.2 rfl rfl (Or.inl rfl) rfl

/-- C10: when the submitted type name is not registered, determineType falls
    back to the registered 'default' type; the new and edit handlers then
    succeed (no validation error, the default type declaring no sanitizer)
    and store the page with 'default' in its type field. -/
theorem C10_unregistered_type_default (types : List PageType) (dt : PageType)
    (tn : List Char)
    (hnot : getType types tn = none)
    (hdef : getType types (chars "default") = some dt)
    (hsan : dt.sanitize = none) :
    determineType types tn = some dt ∧ dt.name = chars "default" ∧
    (∀ (perm : List Char → Option Page → Bool) (slugify : List Char → List Char)
       (store : List Page) (parentSlug titleInput : List Char) (parent : Page),
      getPage store parentSlug = some parent →
      perm (chars "add-page") (some parent) = true →
      ∃ pg, (newHandler types perm slugify store parentSlug titleInput tn).1 =
          Except.ok pg ∧ pg.type = chars "default") ∧
    (∀ (perm : List Char → Option Page → Bool) (slugify : List Char → List Char)
       (store : List Page) (redirects : List (List Char × List Char))
       (originalSlug slugInput titleInput : List Char) (page : Page),
      getPage store originalSlug = some page →
      perm (chars "edit") (some page) = true →
      ¬(normalizeSlug (slugify slugInput) ≠ originalSlug ∧ originalSlug = chars "/") →
      ∃ pg, (editHandler types perm slugify store redirects
          originalSlug slugInput titleInput tn).result =
          Except.ok pg ∧ pg.type = chars "default") := by
  have hname : dt.name = chars "default" := by
    have hx := List.find?_some hdef
    simpa [getType] using hx
  have hdt : determineType types tn = some dt := by
    unfold determineType
    rw [hnot]
    exact hdef
  refine ⟨hdt, hname, ?_, ?_⟩
  · intro perm slugify store parentSlug titleInput parent hpar hperm
    unfold newHandler
    rw [hdt, hpar]
    dsimp only
    rw [if_pos hperm]
    rw [addSanitizedTypeData, hsan]
    exact ⟨_, rfl, hname⟩
  · intro perm slugify store redirects originalSlug slugInput titleInput page
      hpg hperm hroot
    unfold editHandler
    rw [hdt, hpg]
    dsimp only
    rw [if_pos hperm, if_neg hroot]
    rw [addSanitizedTypeData, hsan]
    exact ⟨_, rfl, hname⟩

/-- Witness for C10: submitting the unregistered type name 'fancy' on a new
    page under / and on an edit of /c both succeed with type 'default'. -/
theorem C10_unregistered_type_default_witness :
    determineType defaultTypes (chars "fancy") = some ⟨chars "default", none⟩ ∧
    (∃ pg, (newHandler defaultTypes permTrue id exStore (chars "/") (chars "kid")
        (chars "fancy")).1 = Except.ok pg ∧ pg.type = chars "default") ∧
    (∃ pg, (editHandler defaultTypes permTrue id exStore [] (chars "/c")
        (chars "/c") (chars "C2") (chars "fancy")).result =
        Except.ok pg ∧ pg.type = chars "default") := by
  have h := C10_unregistered_type_default defaultTypes ⟨chars "default", none⟩
    (chars "fancy") (by decide) (by decide) rfl
  refine ⟨h.1, ?_, ?_⟩
  · exact h.2.2.1 permTrue id exStore (chars "/") (chars "kid") exHome (by decide) rfl
  · exact h.2.2.2 permTrue id exStore [] (chars "/c") (chars "/c") (chars "C2") exC
      (by decide) rfl (by decide)

/-! ### Lemmas for the rename cascade -/

theorem isPre_iff (a b : List Char) : a.isPrefixOf b = true ↔ a <+: b :=
  List.isPrefixOf_iff_prefix

theorem pre_ne (og x : List Char) (h : og ++ ['/'] <+: x) : x ≠ og := by
  intro hx
  have hlen := h.length_le
  rw [hx] at hlen
  simp at hlen

theorem rewriteSlug_decomp (og nw s : List Char) (h : og ++ ['/'] <+: s) :
    ∃ u, s = og ++ '/' :: u ∧ rewriteSlug og nw s = nw ++ '/' :: u := by
  obtain ⟨u, hu⟩ := h
  refine ⟨u, ?_, ?_⟩
  · rw [← hu]; simp
  · unfold rewriteSlug
    rw [if_pos ((isPre_iff _ _).mpr ⟨u, hu⟩), ← hu]
    have hdrop : ((og ++ ['/']) ++ u).drop (og.length + 1) = u := by
      have hdl := List.drop_left (og ++ ['/']) u
      simp only [List.length_append, List.length_cons, List.length_nil] at hdl
      exact hdl
    rw [hdrop]
    simp

theorem rewriteSlug_self (og s : List Char) (h : og ++ ['/'] <+: s) :
    rewriteSlug og og s = s := by
  obtain ⟨u, hs, hr⟩ := rewriteSlug_decomp og og s h
  rw [hr, hs]

theorem ne_interleave : ∀ (nw og t t' : List Char), nw ≠ og →
    ¬(nw ++ ['/'] <+: og) → ¬(og ++ ['/'] <+: nw) →
    nw ++ '/' :: t ≠ og ++ '/' :: t' := by
  intro nw
  induction nw with
  | nil =>
    intro og t t' hne h1 h2 heq
    cases og with
    | nil => exact hne rfl
    | cons c oc =>
      simp only [List.nil_append, List.cons_append] at heq
      obtain ⟨hc, -⟩ := List.cons.inj heq
      exact h1 ⟨oc, by rw [← hc]; rfl⟩
  | cons a nw' ih =>
    intro og t t' hne h1 h2 heq
    cases og with
    | nil =>
      simp only [List.cons_append, List.nil_append] at heq
      obtain ⟨ha, -⟩ := List.cons.inj heq
      exact h2 ⟨nw', by rw [← ha]; rfl⟩
    | cons b og' =>
      simp only [List.cons_append] at heq
      obtain ⟨hab, htail⟩ := List.cons.inj heq
      subst hab
      refine ih og' t t' ?_ ?_ ?_ htail
      · intro hh; exact hne (by rw [hh])
      · intro hh; exact h1 (List.cons_prefix_cons.mpr ⟨rfl, hh⟩)
      · intro hh; exact h2 (List.cons_prefix_cons.mpr ⟨rfl, hh⟩)

theorem nodup_filter_len {α β : Type} [DecidableEq β] (f : α → β) (x : β) :
    ∀ l : List α, (l.map f).Nodup →
      (l.filter (fun p => decide (f p = x))).length ≤ 1 := by
  intro l
  induction l with
  | nil => intro _; simp
  | cons p rest ih =>
    intro hnd
    rw [List.map_cons, List.nodup_cons] at hnd
    obtain ⟨hp, hrest⟩ := hnd
    by_cases hfp : f p = x
    · rw [List.filter_cons_of_pos (by simpa using hfp)]
      have hz : rest.filter (fun q => decide (f q = x)) = [] := by
        rw [List.filter_eq_nil_iff]
        intro q hq
        simp only [decide_eq_true_eq]
        intro hfq
        exact hp ((hfp.trans hfq.symm) ▸ List.mem_map_of_mem f hq)
      simp [hz]
    · rw [List.filter_cons_of_neg (by simpa using hfp)]
      exact ih hrest

theorem updateSlug_eq_map (old n : List Char) :
    ∀ l : List Page,
      (l.filter (fun p => decide (p.slug = old))).length ≤ 1 →
      updateSlug old n l =
        l.map (fun p => if p.slug = old then { p with slug := n } else p) := by
  intro l
  induction l with
  | nil => intro _; rfl
  | cons p rest ih =>
    intro hcnt
    by_cases hp : p.slug = old
    · rw [List.filter_cons_of_pos (by simpa using hp)] at hcnt
      have hz : rest.filter (fun q => decide (q.slug = old)) = [] := by
        cases hf : rest.filter (fun q => decide (q.slug = old)) with
        | nil => rfl
        | cons a b =>
          rw [hf] at hcnt
          simp at hcnt
      simp only [updateSlug, List.map_cons, if_pos hp]
      congr 1
      have hrest : ∀ q ∈ rest, (if q.slug = old then { q with slug := n } else q) = q := by
        intro q hq
        rw [if_neg]
        intro hqold
        have hmem : q ∈ rest.filter (fun q => decide (q.slug = old)) :=
          List.mem_filter.mpr ⟨hq, by simpa using hqold⟩
        rw [hz] at hmem
        cases hmem
      rw [List.map_congr_left hrest]
      simp
    · rw [List.filter_cons_of_neg (by simpa using hp)] at hcnt
      simp only [updateSlug, List.map_cons]
      rw [if_neg hp, if_neg hp]
      congr 1
      exact ih hcnt

theorem cascade_writes (og nw : List Char) :
    ∀ (ds store : List Page),
      (cascade og nw ds store).2 =
        ds.map (fun d => (d.slug, rewriteSlug og nw d.slug)) := by
  intro ds
  induction ds with
  | nil => intro store; rfl
  | cons d rest ih =>
    intro store
    simp only [cascade, List.map_cons]
    rw [ih]

theorem cascade_store (og nw : List Char) (hne : nw ≠ og)
    (h1 : ¬(nw ++ ['/'] <+: og)) (h2 : ¬(og ++ ['/'] <+: nw)) :
    ∀ (ds cur : List Page),
      (∀ d ∈ ds, og ++ ['/'] <+: d.slug) →
      (ds.map (fun d => d.slug)).Nodup →
      (∀ d ∈ ds, (cur.filter (fun p => decide (p.slug = d.slug))).length ≤ 1) →
      (cascade og nw ds cur).1 =
        cur.map (fun p => if p.slug ∈ ds.map (fun d => d.slug)
          then { p with slug := rewriteSlug og nw p.slug } else p) := by
  intro ds
  induction ds with
  | nil =>
    intro cur _ _ _
    simp [cascade]
  | cons d rest ih =>
    intro cur hpref hnd hcnt
    obtain ⟨u, hdu, hru⟩ := rewriteSlug_decomp og nw d.slug (hpref d (List.mem_cons_self d rest))
    rw [List.map_cons, List.nodup_cons] at hnd
    obtain ⟨hdn, hndr⟩ := hnd
    have hrne : ∀ d' ∈ rest, rewriteSlug og nw d.slug ≠ d'.slug := by
      intro d' hd'
      obtain ⟨u', hdu', -⟩ :=
        rewriteSlug_decomp og nw d'.slug (hpref d' (List.mem_cons_of_mem d hd'))
      rw [hru, hdu']
      exact ne_interleave nw og u u' hne h1 h2
    simp only [cascade]
    have hup : updateSlug d.slug (rewriteSlug og nw d.slug) cur
        = cur.map (fun p => if p.slug = d.slug
            then { p with slug := rewriteSlug og nw d.slug } else p) :=
      updateSlug_eq_map _ _ cur (hcnt d (List.mem_cons_self d rest))
    rw [hup]
    have hcnt' : ∀ d' ∈ rest,
        (((cur.map (fun p => if p.slug = d.slug
            then { p with slug := rewriteSlug og nw d.slug } else p)).filter
          (fun p => decide (p.slug = d'.slug))).length ≤ 1) := by
      intro d' hd'
      have hmm : (cur.map (fun p => if p.slug = d.slug
            then { p with slug := rewriteSlug og nw d.slug } else p)).filter
            (fun p => decide (p.slug = d'.slug))
          = (cur.filter (fun p => decide (p.slug = d'.slug))).map
            (fun p => if p.slug = d.slug
              then { p with slug := rewriteSlug og nw d.slug } else p) := by
        rw [List.filter_map]
        congr 1
        apply List.filter_congr
        intro p hp
        simp only [Function.comp_apply]
        by_cases hps : p.slug = d.slug
        · rw [if_pos hps]
          have hdne : d.slug ≠ d'.slug := by
            intro hh
            exact hdn (hh ▸ List.mem_map_of_mem (fun x => x.slug) hd')
          simp only [decide_eq_decide]
          constructor
          · intro hh
            exact absurd hh (hrne d' hd')
          · intro hh
            exact absurd (hps.symm.trans hh) (fun hx => hdne hx)
        · rw [if_neg hps]
      rw [hmm, List.length_map]
      exact hcnt d' (List.mem_cons_of_mem d hd')
    have hprefr : ∀ d' ∈ rest, og ++ ['/'] <+: d'.slug := by
      intro d' hd'
      exact hpref d' (List.mem_cons_of_mem d hd')
    rw [ih _ hprefr hndr hcnt']
    rw [List.map_map]
    apply List.map_congr_left
    intro p hp
    simp only [Function.comp_apply]
    by_cases hps : p.slug = d.slug
    · rw [if_pos hps]
      have hrnotin : rewriteSlug og nw d.slug ∉ rest.map (fun x => x.slug) := by
        intro hmem
        obtain ⟨d', hd', hx⟩ := List.mem_map.mp hmem
        exact (hrne d' hd') hx.symm
      rw [if_neg (by simpa using hrnotin)]
      rw [List.map_cons]
      rw [if_pos (by rw [hps]; exact List.mem_cons_self _ _)]
      rw [hps]
    · rw [if_neg hps]
      rw [List.map_cons]
      by_cases hin : p.slug ∈ rest.map (fun x => x.slug)
      · rw [if_pos hin, if_pos (List.mem_cons_of_mem _ hin)]
      · rw [if_neg hin, if_neg ?_]
        intro hmem
        rcases List.mem_cons.mp hmem with hh | hh
        · exact hps hh
        · exact hin hh

theorem findRedirect_updateRedirect_ne (rds : List (List Char × List Char))
    (og nw f : List Char) (hf : f ≠ og) :
    findRedirect (updateRedirect rds og nw) f = findRedirect rds f := by
  unfold updateRedirect findRedirect
  split
  · rw [List.find?_map]
    have hfun : ((fun r : List Char × List Char => decide (r.1 = f)) ∘
        (fun r => if r.1 = og then (og, nw) else r)) =
        (fun r : List Char × List Char => decide (r.1 = f)) := by
      funext r
      simp only [Function.comp_apply]
      split
      · rename_i hr
        simp [Ne.symm hf, hr]
      · rfl
    rw [hfun]
    cases hfind : rds.find? (fun r => decide (r.1 = f)) with
    | none => rfl
    | some r =>
      have hr : r.1 = f := by simpa using List.find?_some hfind
      simp only [Option.map_some']
      rw [if_neg (by rw [hr]; exact hf)]
  · rw [List.find?_append]
    have hz : List.find? (fun r : List Char × List Char => decide (r.1 = f)) [(og, nw)]
        = none := by
      simp [List.find?, Ne.symm hf]
    rw [hz]
    simp

theorem putPage_eq_map (store : List Page) (og : List Char) (page page2 : Page)
    (hpg : getPage store og = some page) :
    putPage store og page2 = store.map (fun p => if p.slug = og then page2 else p) := by
  unfold putPage
  rw [if_pos]
  rw [List.any_eq_true]
  have hmem := List.mem_of_find?_eq_some hpg
  have hps : page.slug = og := by simpa using List.find?_some hpg
  exact ⟨page, hmem, by simpa using hps⟩

theorem isPre_false_of_not (a b : List Char) (h : ¬(a <+: b)) : a.isPrefixOf b = false := by
  cases hb : a.isPrefixOf b
  · rfl
  · exact absurd ((isPre_iff a b).mp hb) h

theorem not_self_pre (og : List Char) : ¬(og ++ ['/'] <+: og) := fun h => pre_ne og og h rfl

theorem store1_filter_pre (store : List Page) (og nw : List Char) (page2 : Page)
    (hp2 : page2.slug = nw) (h2 : ¬(og ++ ['/'] <+: nw)) :
    (store.map (fun p => if p.slug = og then page2 else p)).filter
        (fun d => (og ++ ['/']).isPrefixOf d.slug)
      = store.filter (fun d => (og ++ ['/']).isPrefixOf d.slug) := by
  rw [List.filter_map]
  have hcong : ∀ p ∈ store,
      ((fun d => (og ++ ['/']).isPrefixOf d.slug) ∘
        (fun p => if p.slug = og then page2 else p)) p
        = (fun d => (og ++ ['/']).isPrefixOf d.slug) p := by
    intro p hp
    simp only [Function.comp_apply]
    split
    · rename_i hps
      rw [hp2, hps]
      rw [isPre_false_of_not _ _ h2, isPre_false_of_not _ _ (not_self_pre og)]
    · rfl
  rw [List.filter_congr hcong]
  have hid : ∀ p ∈ store.filter (fun d => (og ++ ['/']).isPrefixOf d.slug),
      (if p.slug = og then page2 else p) = p := by
    intro p hp
    rw [if_neg]
    have hpre := (List.mem_filter.mp hp).2
    intro hps
    rw [hps] at hpre
    rw [isPre_false_of_not _ _ (not_self_pre og)] at hpre
    cases hpre
  rw [List.map_congr_left hid]
  simp

theorem store1_count (store : List Page) (og nw x : List Char) (page2 : Page)
    (hp2 : page2.slug = nw) (hxpre : og ++ ['/'] <+: x) (h2 : ¬(og ++ ['/'] <+: nw))
    (hnodup : (store.map (fun p => p.slug)).Nodup) :
    ((store.map (fun p => if p.slug = og then page2 else p)).filter
        (fun p => decide (p.slug = x))).length ≤ 1 := by
  rw [List.filter_map, List.length_map]
  have hcong : ∀ p ∈ store,
      ((fun p => decide (p.slug = x)) ∘ (fun p => if p.slug = og then page2 else p)) p
        = (fun p => decide (p.slug = x)) p := by
    intro p hp
    simp only [Function.comp_apply]
    split
    · rename_i hps
      rw [hp2, hps]
      have hnx : nw ≠ x := fun hh => h2 (hh ▸ hxpre)
      have hox : og ≠ x := fun hh => (pre_ne og x hxpre) hh.symm
      simp [hnx, hox]
    · rfl
  rw [List.filter_congr hcong]
  exact nodup_filter_len (fun p => p.slug) x store hnodup

/-- C3 (amended): when a rename changes the slug AND neither slug extends the
    other at a '/' boundary, every page of the pre-update store whose slug
    extends the original slug at a '/' boundary gets exactly one slug write
    replacing that prefix by the new slug; the cascade is skipped entirely
    when the slug is unchanged; one redirect is upserted, keyed by the renamed
    page's own original slug, and the redirect entry of every other address is
    left untouched. The boundary proviso is necessary: the cascade queries
    the store only after the renamed page was written back, so when the new
    slug extends the old one at a '/' boundary the renamed page re-matches
    its own cascade and is rewritten again (refuted separately for the
    original unconditional claim). -/
theorem C3_cascade_spec (types : List PageType) (t : PageType)
    (perm : List Char → Option Page → Bool) (slugify : List Char → List Char)
    (store : List Page) (redirects : List (List Char × List Char))
    (og s ti tn nw : List Char) (page page2 : Page)
    (hdt : determineType types tn = some t)
    (hsan : t.sanitize ≠ some false)
    (hpg : getPage store og = some page)
    (hperm : perm (chars "edit") (some page) = true)
    (hnw : nw = normalizeSlug (slugify s))
    (hpage2 : page2 = { page with
        title := if trim ti = [] then chars "Untitled Page" else trim ti,
        slug := nw, type := t.name })
    (hroot : ¬(nw ≠ og ∧ og = chars "/"))
    (hnodup : (store.map (fun p => p.slug)).Nodup)
    (h1 : ¬(nw ++ ['/'] <+: og))
    (h2 : ¬(og ++ ['/'] <+: nw)) :
    (editHandler types perm slugify store redirects og s ti tn).result =
        Except.ok page2 ∧
    (editHandler types perm slugify store redirects og s ti tn).writes =
      (if og = nw then [] else
        (store.filter (fun d => (og ++ ['/']).isPrefixOf d.slug)).map
          (fun d => (d.slug, rewriteSlug og nw d.slug))) ∧
    (editHandler types perm slugify store redirects og s ti tn).store =
      store.map (fun p =>
        if p.slug = og then page2
        else if (og ++ ['/']).isPrefixOf p.slug then
          { p with slug := rewriteSlug og nw p.slug }
        else p) ∧
    (editHandler types perm slugify store redirects og s ti tn).redirects =
      updateRedirect redirects og nw ∧
    (∀ f, f ≠ og →
      findRedirect
        (editHandler types perm slugify store redirects og s ti tn).redirects f =
      findRedirect redirects f) := by
  subst hnw
  subst hpage2
  have hsan' : addSanitizedTypeData t = Except.ok () := by
    unfold addSanitizedTypeData
    cases hs : t.sanitize with
    | none => rfl
    | some b =>
      cases b with
      | true => rfl
      | false => exact absurd hs hsan
  unfold editHandler
  rw [hdt, hpg]
  dsimp only
  rw [if_pos hperm, if_neg hroot, hsan']
  dsimp only
  have hput := putPage_eq_map store og page
    { page with
        title := if trim ti = [] then chars "Untitled Page" else trim ti,
        slug := normalizeSlug (slugify s), type := t.name } hpg
  refine ⟨rfl, ?_, ?_, rfl, ?_⟩
  · -- the writes
    unfold updateDescendantsStep
    by_cases hogn : og = normalizeSlug (slugify s)
    · rw [if_pos hogn, if_pos hogn]
    · rw [if_neg hogn, if_neg hogn]
      rw [cascade_writes, hput, store1_filter_pre store og _ _ rfl h2]
  · -- the final store
    unfold updateDescendantsStep
    by_cases hogn : og = normalizeSlug (slugify s)
    · rw [if_pos hogn]
      dsimp only
      rw [hput]
      apply List.map_congr_left
      intro p hp
      by_cases hps : p.slug = og
      · rw [if_pos hps, if_pos hps]
      · rw [if_neg hps, if_neg hps]
        by_cases hpre : (og ++ ['/']).isPrefixOf p.slug = true
        · rw [if_pos hpre]
          rw [← hogn]
          rw [rewriteSlug_self og p.slug ((isPre_iff _ _).mp hpre)]
        · rw [if_neg hpre]
    · rw [if_neg hogn]
      rw [hput, store1_filter_pre store og _ _ rfl h2]
      rw [cascade_store og (normalizeSlug (slugify s)) (fun hh => hogn hh.symm) h1 h2
        (store.filter (fun d => (og ++ ['/']).isPrefixOf d.slug)) _
        (fun d hd => (isPre_iff _ _).mp (List.mem_filter.mp hd).2)
        ((List.Sublist.map (fun p => p.slug) (List.filter_sublist store)).nodup hnodup)
        (fun d hd => store1_count store og _ d.slug _ rfl
          ((isPre_iff _ _).mp (List.mem_filter.mp hd).2) h2 hnodup)]
      rw [List.map_map]
      apply List.map_congr_left
      intro p hp
      simp only [Function.comp_apply]
      by_cases hps : p.slug = og
      · rw [if_pos hps]
        have hnotin : ({ page with
              title := if trim ti = [] then chars "Untitled Page" else trim ti,
              slug := normalizeSlug (slugify s), type := t.name } : Page).slug ∉
            (store.filter (fun d => (og ++ ['/']).isPrefixOf d.slug)).map
              (fun d => d.slug) := by
          intro hmem
          obtain ⟨d, hd, hds⟩ := List.mem_map.mp hmem
          have hdp := (isPre_iff _ _).mp (List.mem_filter.mp hd).2
          rw [hds] at hdp
          exact h2 hdp
        rw [if_neg hnotin, if_pos hps]
      · rw [if_neg hps]
        by_cases hpre : (og ++ ['/']).isPrefixOf p.slug = true
        · have hin : p.slug ∈ (store.filter
              (fun d => (og ++ ['/']).isPrefixOf d.slug)).map (fun d => d.slug) :=
            List.mem_map_of_mem _ (List.mem_filter.mpr ⟨hp, hpre⟩)
          rw [if_pos hin, if_pos hpre, if_neg hps]
        · have hout : p.slug ∉ (store.filter
              (fun d => (og ++ ['/']).isPrefixOf d.slug)).map (fun d => d.slug) := by
            intro hmem
            obtain ⟨d, hd, hds⟩ := List.mem_map.mp hmem
            have hdp := (List.mem_filter.mp hd).2
            rw [hds] at hdp
            exact hpre hdp
          rw [if_neg hout, if_neg hpre, if_neg hps]
  · -- the redirect store
    intro f hf
    exact findRedirect_updateRedirect_ne redirects og (normalizeSlug (slugify s)) f hf

/-- Witness for C3 at the concrete rename of /a to /x: exactly one descendant
    write rewrites /a/b to /x/b, and no redirect exists for the old grandchild
    address /a/b afterwards. -/
theorem C3_cascade_spec_witness :
    (editHandler defaultTypes permTrue id exStore []
        (chars "/a") (chars "/x") (chars "A2") (chars "default")).writes =
      [(chars "/a/b", chars "/x/b")] ∧
    findRedirect (editHandler defaultTypes permTrue id exStore []
        (chars "/a") (chars "/x") (chars "A2") (chars "default")).redirects
      (chars "/a/b") = none := by
  have h := C3_cascade_spec defaultTypes ⟨chars "default", none⟩ permTrue id exStore []
    (chars "/a") (chars "/x") (chars "A2") (chars "default") (chars "/x") exA
    { exA with title := chars "A2", slug := chars "/x", type := chars "default" }
    (by decide) (by decide) (by decide) rfl (by decide) (by decide) (by decide)
    (by decide) (by decide) (by decide)
  constructor
  · rw [h.2.1]; decide
  · exact (h.2.2.2.2 (chars "/a/b") (by decide)).trans rfl

/-! ### Rank allocation lemmas -/

theorem rankFold_aux : ∀ (l : List Page) (memo : Nat),
    List.foldl (fun memo child => if child.rank ≥ memo then child.rank + 1 else memo) memo l
      = max memo ((l.map (fun c => c.rank + 1)).foldr max 0) := by
  intro l
  induction l with
  | nil => intro memo; simp
  | cons c cs ih =>
    intro memo
    simp only [List.foldl_cons, List.map_cons, List.foldr_cons]
    rw [ih]
    have hstep : (if c.rank ≥ memo then c.rank + 1 else memo) = max memo (c.rank + 1) := by
      split
      · rename_i hh; omega
      · rename_i hh; omega
    rw [hstep]
    exact max_assoc memo (c.rank + 1) _

theorem foldr_max_succ : ∀ xs : List Nat,
    (xs.map (fun x => x + 1)).foldr max 0 =
      if xs = [] then 0 else xs.foldr max 0 + 1 := by
  intro xs
  induction xs with
  | nil => simp
  | cons x ys ih =>
    simp only [List.map_cons, List.foldr_cons]
    rw [ih]
    by_cases hy : ys = []
    · subst hy; simp
    · rw [if_neg hy, if_neg (by simp)]
      omega

theorem rankFold_eq (l : List Page) :
    rankFold l = 1 + (l.map (fun p => p.rank)).foldr max 0 := by
  unfold rankFold
  rw [rankFold_aux]
  have hmm : l.map (fun c => c.rank + 1) = (l.map (fun p => p.rank)).map (fun x => x + 1) := by
    rw [List.map_map]
    rfl
  rw [hmm, foldr_max_succ]
  by_cases hl : l.map (fun p => p.rank) = []
  · rw [if_pos hl, hl]
    simp
  · rw [if_neg hl]
    omega

theorem perm_foldr_max : ∀ {l l' : List Nat}, List.Perm l l' →
    l.foldr max 0 = l'.foldr max 0 := by
  intro l l' h
  induction h with
  | nil => rfl
  | cons x _ ih => simp [ih]
  | swap x y l =>
    simp only [List.foldr_cons]
    rw [← max_assoc, max_comm y x, max_assoc]
  | trans _ _ ih1 ih2 => exact ih1.trans ih2

/-! ### Top-level descendants equal the flat query when no parent is present -/

theorem attachKid_keys (pp cp : List Char) :
    ∀ l, (attachKid pp cp l).map Prod.fst = l.map Prod.fst := by
  intro l
  induction l with
  | nil => rfl
  | cons e rest ih =>
    obtain ⟨k, v⟩ := e
    simp only [attachKid]
    split
    · simp
    · simpa using ih

theorem lookupKids_none_iff : ∀ (l : List (List Char × List (List Char))) (k : List Char),
    lookupKids k l = none ↔ k ∉ l.map Prod.fst := by
  intro l
  induction l with
  | nil => intro k; simp [lookupKids]
  | cons e rest ih =>
    intro k
    obtain ⟨k2, v⟩ := e
    simp only [lookupKids, List.map_cons, List.mem_cons]
    split
    · rename_i hk
      subst hk
      simp
    · rename_i hk
      rw [ih k]
      constructor
      · intro hh hcon
        rcases hcon with hcon | hcon
        · exact hk hcon.symm
        · exact hh hcon
      · intro hh
        exact fun hcon => hh (Or.inr hcon)

theorem buildForest_roots_all : ∀ (todo : List Page) (st : Forest),
    (∀ q ∈ todo, parentPath q.path ∉
        st.kids.map Prod.fst ++ todo.map (fun p => p.path)) →
    (buildForest todo st).roots = st.roots ++ todo.map (fun p => p.path) := by
  intro todo
  induction todo with
  | nil => intro st _; simp [buildForest]
  | cons p rest ih =>
    intro st h
    have hp := h p (List.mem_cons_self p rest)
    have hkeys : (st.kids ++ [(p.path, [])]).map Prod.fst
        = st.kids.map Prod.fst ++ [p.path] := by simp
    have hnone : lookupKids (parentPath p.path) (st.kids ++ [(p.path, [])]) = none := by
      rw [lookupKids_none_iff, hkeys]
      intro hmem
      rcases List.mem_append.mp hmem with hh | hh
      · exact hp (List.mem_append.mpr (Or.inl hh))
      · exact hp (List.mem_append.mpr (Or.inr (by
          simp only [List.map_cons, List.mem_cons]
          exact Or.inl (by simpa using hh))))
    simp only [buildForest]
    rw [hnone]
    simp only [Option.isSome_none, Bool.false_eq_true, if_neg (by simp : ¬False)]
    rw [ih _ ?_]
    · simp
    · intro q hq
      rw [hkeys]
      have hq2 := h q (List.mem_cons_of_mem p hq)
      intro hmem
      apply hq2
      rcases List.mem_append.mp hmem with hh | hh
      · rcases List.mem_append.mp hh with h3 | h3
        · exact List.mem_append.mpr (Or.inl h3)
        · exact List.mem_append.mpr (Or.inr (by
            simp only [List.map_cons, List.mem_cons]
            exact Or.inl (by simpa using h3)))
      · exact List.mem_append.mpr (Or.inr (by
          simp only [List.map_cons, List.mem_cons]
          exact Or.inr hh))

theorem find?_path_self (R : List Page)
    (hnd : (R.map (fun p => p.path)).Nodup) :
    ∀ p ∈ R, R.find? (fun q => decide (q.path = p.path)) = some p := by
  induction R with
  | nil => intro p hp; cases hp
  | cons r rest ih =>
    intro p hp
    rw [List.map_cons, List.nodup_cons] at hnd
    obtain ⟨hr, hrest⟩ := hnd
    rcases List.mem_cons.mp hp with rfl | hp2
    · rw [List.find?_cons_of_pos _ (by simp)]
    · have hne : r.path ≠ p.path := by
        intro hh
        exact hr (hh ▸ List.mem_map_of_mem (fun p => p.path) hp2)
      rw [List.find?_cons_of_neg _ (by simpa using hne)]
      exact ih hrest p hp2

theorem filterMap_find?_self (R : List Page)
    (hnd : (R.map (fun p => p.path)).Nodup) :
    (R.map (fun p => p.path)).filterMap
        (fun pth => R.find? (fun p => decide (p.path = pth))) = R := by
  have haux : ∀ S : List Page, (∀ p ∈ S, p ∈ R) →
      (S.map (fun p => p.path)).filterMap
        (fun pth => R.find? (fun p => decide (p.path = pth))) = S := by
    intro S
    induction S with
    | nil => intro _; rfl
    | cons p S' ih =>
      intro hsub
      rw [List.map_cons, List.filterMap_cons]
      rw [find?_path_self R hnd p (hsub p (List.mem_cons_self p S'))]
      rw [ih (fun q hq => hsub q (List.mem_cons_of_mem p hq))]
  exact haux R (fun p hp => hp)

theorem mem_descendantsQuery (store : List Page) (page : Page) (depth : Nat) (q : Page) :
    q ∈ descendantsQuery store page depth ↔
      q ∈ store ∧ (page.path ++ ['/'] <+: q.path) ∧
        page.level < q.level ∧ q.level ≤ page.level + depth := by
  unfold descendantsQuery
  rw [(sortLe_perm _ _).mem_iff, List.mem_filter]
  simp only [Bool.and_eq_true, decide_eq_true_eq, isPre_iff]
  tauto

theorem nodup_paths_query (store : List Page) (page : Page) (depth : Nat)
    (hnodup : (store.map (fun p => p.path)).Nodup) :
    ((descendantsQuery store page depth).map (fun p => p.path)).Nodup := by
  unfold descendantsQuery
  have hperm := (sortLe_perm levelRankLe (store.filter (fun q =>
      (page.path ++ ['/']).isPrefixOf q.path &&
      decide (page.level < q.level) && decide (q.level ≤ page.level + depth)))).map
    (fun p => p.path)
  rw [hperm.nodup_iff]
  exact ((List.filter_sublist store).map (fun p => p.path)).nodup hnodup

theorem descendantsTop_eq_of_no_parent (store : List Page) (page : Page) (depth : Nat)
    (hndR : ((descendantsQuery store page depth).map (fun p => p.path)).Nodup)
    (hpar : ∀ q ∈ descendantsQuery store page depth,
      parentPath q.path ∉ (descendantsQuery store page depth).map (fun p => p.path)) :
    descendantsTop store page depth = descendantsQuery store page depth := by
  unfold descendantsTop getDescendants
  dsimp only
  rw [buildForest_roots_all (descendantsQuery store page depth) ⟨[], []⟩
    (by intro q hq; simpa using hpar q hq)]
  simp only [List.nil_append]
  exact filterMap_find?_self _ hndR

/-! ### Path decomposition lemmas -/

theorem dropWhile_head_not {α : Type} (p : α → Bool) :
    ∀ (l : List α) (c : α) (rest : List α), l.dropWhile p = c :: rest → p c = false := by
  intro l
  induction l with
  | nil => intro c rest h; cases h
  | cons a as ih =>
    intro c rest h
    rw [List.dropWhile_cons] at h
    split at h
    · exact ih c rest h
    · rename_i hpa
      obtain ⟨rfl, -⟩ := List.cons.inj h
      exact Bool.not_eq_true _ ▸ hpa

theorem parentPath_decomp (l : List Char) (h : '/' ∈ l) :
    l = parentPath l ++ '/' :: lastSegment l ∧ '/' ∉ lastSegment l := by
  have hsplit := List.takeWhile_append_dropWhile (fun c => decide (c ≠ '/')) l.reverse
  have hnonempty : l.reverse.dropWhile (fun c => decide (c ≠ '/')) ≠ [] := by
    intro hnil
    rw [List.dropWhile_eq_nil_iff] at hnil
    have hmem : '/' ∈ l.reverse := List.mem_reverse.mpr h
    have := hnil '/' hmem
    simp at this
  obtain ⟨c, rest, hd⟩ : ∃ c rest,
      l.reverse.dropWhile (fun c => decide (c ≠ '/')) = c :: rest := by
    cases hdw : l.reverse.dropWhile (fun c => decide (c ≠ '/')) with
    | nil => exact absurd hdw hnonempty
    | cons c rest => exact ⟨c, rest, rfl⟩
  have hc : c = '/' := by
    have := dropWhile_head_not _ _ _ _ hd
    simpa using this
  subst hc
  constructor
  · have hl : l = (l.reverse.dropWhile (fun c => decide (c ≠ '/'))).reverse ++
        (l.reverse.takeWhile (fun c => decide (c ≠ '/'))).reverse := by
      rw [← List.reverse_append, hsplit, List.reverse_reverse]
    conv in l => rw [hl]
    rw [hd]
    unfold parentPath lastSegment
    rw [hd]
    simp
  · intro hmem
    unfold lastSegment at hmem
    rw [List.mem_reverse] at hmem
    have := List.mem_takeWhile_imp hmem
    simp at this

theorem countSlash_parentPath (l : List Char) (h : '/' ∈ l) :
    countSlash l = countSlash (parentPath l) + 1 := by
  obtain ⟨hdec, hnoslash⟩ := parentPath_decomp l h
  conv in countSlash l => rw [hdec]
  unfold countSlash
  rw [List.count_append, List.count_cons]
  have hz : (lastSegment l).count '/' = 0 := List.count_eq_zero.mpr hnoslash
  rw [hz]
  simp

theorem parentPath_append_seg (base seg : List Char) (h : '/' ∉ seg) :
    parentPath (base ++ '/' :: seg) = base ∧ lastSegment (base ++ '/' :: seg) = seg := by
  have hrev : (base ++ '/' :: seg).reverse = seg.reverse ++ '/' :: base.reverse := by
    simp
  have hall : ∀ x ∈ seg.reverse, (fun c => decide (c ≠ '/')) x = true := by
    intro x hx
    rw [List.mem_reverse] at hx
    simp only [decide_eq_true_eq]
    intro hh
    exact h (hh ▸ hx)
  constructor
  · unfold parentPath
    rw [hrev]
    rw [List.dropWhile_append]
    rw [List.dropWhile_eq_nil_iff.mpr ?_]
    · simp [List.dropWhile_cons]
    · intro x hx
      exact hall x hx
  · unfold lastSegment
    rw [hrev]
    rw [List.takeWhile_append]
    have htw : List.takeWhile (fun c => decide (c ≠ '/')) seg.reverse = seg.reverse := by
      have haux : ∀ l : List Char, (∀ x ∈ l, (fun c => decide (c ≠ '/')) x = true) →
          List.takeWhile (fun c => decide (c ≠ '/')) l = l := by
        intro l
        induction l with
        | nil => intro _; rfl
        | cons a as ih =>
          intro hl
          rw [List.takeWhile_cons, if_pos (hl a (List.mem_cons_self a as))]
          rw [ih (fun x hx => hl x (List.mem_cons_of_mem a hx))]
      exact haux seg.reverse hall
    rw [if_pos (by rw [htw])]
    have hz : List.takeWhile (fun c => decide (c ≠ '/')) ('/' :: base.reverse) = [] := by
      simp [List.takeWhile_cons]
    rw [hz]
    simp

theorem query_no_parent (store : List Page) (page : Page)
    (hnodup : (store.map (fun p => p.path)).Nodup)
    (hlev : ∀ p ∈ store, p.level = countSlash p.path) :
    ∀ q ∈ descendantsQuery store page 1,
      parentPath q.path ∉ (descendantsQuery store page 1).map (fun p => p.path) := by
  intro q hq hmem
  obtain ⟨r, hr, hrp⟩ := List.mem_map.mp hmem
  obtain ⟨hqs, hqpre, hql1, hql2⟩ := (mem_descendantsQuery store page 1 q).mp hq
  obtain ⟨hrs, hrpre, hrl1, hrl2⟩ := (mem_descendantsQuery store page 1 r).mp hr
  obtain ⟨tt, htt⟩ := hqpre
  have hslash : '/' ∈ q.path := by
    rw [← htt]
    simp
  have hq' := hlev q hqs
  have hr' := hlev r hrs
  have hcount := countSlash_parentPath q.path hslash
  rw [hrp] at hr'
  omega

theorem getNextRank_eq (store : List Page) (parent : Page)
    (hnodup : (store.map (fun p => p.path)).Nodup)
    (hlev : ∀ p ∈ store, p.level = countSlash p.path) :
    getNextRank store parent =
      1 + ((store.filter (fun q =>
          (parent.path ++ ['/']).isPrefixOf q.path &&
          decide (parent.level < q.level) &&
          decide (q.level ≤ parent.level + 1))).map (fun p => p.rank)).foldr max 0 := by
  unfold getNextRank
  rw [descendantsTop_eq_of_no_parent store parent 1
    (nodup_paths_query store parent 1 hnodup)
    (query_no_parent store parent hnodup hlev)]
  rw [rankFold_eq]
  congr 1
  apply perm_foldr_max
  exact ((sortLe_perm levelRankLe _).map (fun p => p.rank))

theorem putPage_notin (store : List Page) (slg : List Char) (page : Page)
    (h : ∀ p ∈ store, p.slug ≠ slg) :
    putPage store slg page = store ++ [page] := by
  unfold putPage
  rw [if_neg]
  intro hany
  rw [List.any_eq_true] at hany
  obtain ⟨p, hp, hps⟩ := hany
  exact h p hp (by simpa using hps)

theorem newHandler_step (types : List PageType) (t : PageType)
    (perm : List Char → Option Page → Bool) (slugify : List Char → List Char)
    (parentSlug tn : List Char) (parent : Page) (store0 kids : List Page)
    (ti : List Char)
    (hdt : determineType types tn = some t)
    (hsan : t.sanitize = none)
    (hpg0 : getPage store0 parentSlug = some parent)
    (hperm : perm (chars "add-page") (some parent) = true)
    (hclean : ∀ q ∈ store0, ¬((parent.path ++ ['/']) <+: q.path ∧
        parent.level < q.level ∧ q.level ≤ parent.level + 1))
    (hshape : ∀ k ∈ kids, ∃ seg, '/' ∉ seg ∧ k.path = parent.path ++ ['/'] ++ seg ∧
        k.level = parent.level + 1 ∧ k.slug = addSlashIfNeeded parentSlug ++ seg)
    (hkp : (kids.map (fun p => p.path)).Nodup)
    (hmax : (kids.map (fun p => p.rank)).foldr max 0 = kids.length)
    (htrim : trim ti = ti) (htne : ti ≠ [])
    (hslfresh : (addSlashIfNeeded parentSlug ++ slugify ti) ∉
        (store0 ++ kids).map (fun p => p.slug)) :
    newHandler types perm slugify (store0 ++ kids) parentSlug ti tn =
      (Except.ok (mkKid slugify parentSlug parent t.name (kids.length + 1) ti),
       (store0 ++ kids) ++ [mkKid slugify parentSlug parent t.name (kids.length + 1) ti]) := by
  have hpg : getPage (store0 ++ kids) parentSlug = some parent := by
    unfold getPage at hpg0 ⊢
    rw [List.find?_append, hpg0]
    rfl
  have hfilter : (store0 ++ kids).filter (fun q =>
      (parent.path ++ ['/']).isPrefixOf q.path &&
      decide (parent.level < q.level) && decide (q.level ≤ parent.level + 1)) = kids := by
    have h1 : store0.filter (fun q =>
        (parent.path ++ ['/']).isPrefixOf q.path &&
        decide (parent.level < q.level) && decide (q.level ≤ parent.level + 1)) = [] := by
      rw [List.filter_eq_nil_iff]
      intro q hq
      simp only [Bool.and_eq_true, decide_eq_true_eq, isPre_iff]
      intro hcond
      exact hclean q hq ⟨hcond.1.1, hcond.1.2, hcond.2⟩
    have h2 : kids.filter (fun q =>
        (parent.path ++ ['/']).isPrefixOf q.path &&
        decide (parent.level < q.level) && decide (q.level ≤ parent.level + 1)) = kids := by
      rw [List.filter_eq_self]
      intro k hk
      obtain ⟨seg, hns, hpath, hlev, hslug⟩ := hshape k hk
      simp only [Bool.and_eq_true, decide_eq_true_eq, isPre_iff]
      exact ⟨⟨⟨seg, hpath.symm⟩, by omega⟩, by omega⟩
    rw [List.filter_append, h1, h2, List.nil_append]
  have hquery : descendantsQuery (store0 ++ kids) parent 1 = sortLe levelRankLe kids := by
    unfold descendantsQuery
    rw [hfilter]
  have htop : descendantsTop (store0 ++ kids) parent 1 = sortLe levelRankLe kids := by
    rw [← hquery]
    apply descendantsTop_eq_of_no_parent
    · rw [hquery]
      rw [((sortLe_perm levelRankLe kids).map (fun p => p.path)).nodup_iff]
      exact hkp
    · rw [hquery]
      intro q hq hmem
      have hqk : q ∈ kids := (sortLe_perm levelRankLe kids).mem_iff.mp hq
      obtain ⟨seg, hns, hpath, -, -⟩ := hshape q hqk
      have hpp : parentPath q.path = parent.path := by
        rw [hpath, List.append_assoc]
        exact (parentPath_append_seg parent.path seg hns).1
      rw [hpp] at hmem
      obtain ⟨r, hr, hrp⟩ := List.mem_map.mp hmem
      have hrk : r ∈ kids := (sortLe_perm levelRankLe kids).mem_iff.mp hr
      obtain ⟨seg', -, hpath', -, -⟩ := hshape r hrk
      rw [hpath'] at hrp
      have hlen := congrArg List.length hrp
      simp at hlen
  have hrank : getNextRank (store0 ++ kids) parent = kids.length + 1 := by
    unfold getNextRank
    rw [htop, rankFold_eq]
    rw [perm_foldr_max ((sortLe_perm levelRankLe kids).map (fun p => p.rank)), hmax]
    omega
  have hok : addSanitizedTypeData t = Except.ok () := by
    unfold addSanitizedTypeData
    rw [hsan]
  unfold newHandler
  rw [hdt, hpg]
  dsimp only
  rw [if_pos hperm, htrim, if_neg htne, hrank, hok]
  dsimp only
  rw [putPage_notin]
  · rfl
  · intro p hp hps
    exact hslfresh (hps ▸ List.mem_map_of_mem (fun p => p.slug) hp)

theorem foldr_max_init : ∀ (l : List Nat) (x : Nat), l.foldr max x = max (l.foldr max 0) x := by
  intro l
  induction l with
  | nil => intro x; simp
  | cons a as ih =>
    intro x
    simp only [List.foldr_cons]
    rw [ih x]
    exact (max_assoc a (as.foldr max 0) x).symm

theorem insertSeq_go (types : List PageType) (t : PageType)
    (perm : List Char → Option Page → Bool) (slugify : List Char → List Char)
    (parentSlug tn : List Char) (parent : Page) (store0 : List Page)
    (hdt : determineType types tn = some t)
    (hsan : t.sanitize = none)
    (hpg0 : getPage store0 parentSlug = some parent)
    (hperm : perm (chars "add-page") (some parent) = true)
    (hclean : ∀ q ∈ store0, ¬((parent.path ++ ['/']) <+: q.path ∧
        parent.level < q.level ∧ q.level ≤ parent.level + 1)) :
    ∀ (ts : List (List Char)) (kids : List Page),
      (∀ k ∈ kids, ∃ seg, '/' ∉ seg ∧ k.path = parent.path ++ ['/'] ++ seg ∧
          k.level = parent.level + 1 ∧ k.slug = addSlashIfNeeded parentSlug ++ seg) →
      (kids.map (fun p => p.path)).Nodup →
      (kids.map (fun p => p.rank)).foldr max 0 = kids.length →
      (∀ ti ∈ ts, trim ti = ti ∧ ti ≠ [] ∧ '/' ∉ slugify ti ∧
          (addSlashIfNeeded parentSlug ++ slugify ti) ∉ store0.map (fun p => p.slug)) →
      (∀ ti ∈ ts, ∀ k ∈ kids, k.path ≠ parent.path ++ ['/'] ++ slugify ti) →
      (ts.map slugify).Nodup →
      insertSeq types perm slugify parentSlug tn (store0 ++ kids) ts =
        ((kidsFrom slugify parentSlug parent t.name (kids.length + 1) ts).map Except.ok,
         (store0 ++ kids) ++
           kidsFrom slugify parentSlug parent t.name (kids.length + 1) ts) := by
  intro ts
  induction ts with
  | nil =>
    intro kids _ _ _ _ _ _
    simp [insertSeq, kidsFrom]
  | cons ti ts' ih =>
    intro kids hshape hkp hmax hts hfresh hsegnd
    obtain ⟨htrim, htne, hsl, hsfresh⟩ := hts ti (List.mem_cons_self ti ts')
    have hslfull : (addSlashIfNeeded parentSlug ++ slugify ti) ∉
        (store0 ++ kids).map (fun p => p.slug) := by
      rw [List.map_append]
      intro hmem
      rcases List.mem_append.mp hmem with hh | hh
      · exact hsfresh hh
      · obtain ⟨k, hk, hks⟩ := List.mem_map.mp hh
        obtain ⟨seg, -, hkpath, -, hkslug⟩ := hshape k hk
        rw [hkslug] at hks
        have hseg : seg = slugify ti := List.append_cancel_left hks
        exact (hfresh ti (List.mem_cons_self ti ts') k hk) (by rw [hkpath, hseg])
    have hstep := newHandler_step types t perm slugify parentSlug tn parent store0 kids ti
      hdt hsan hpg0 hperm hclean hshape hkp hmax htrim htne hslfull
    simp only [insertSeq]
    rw [hstep]
    dsimp only
    rw [List.map_cons, List.nodup_cons] at hsegnd
    obtain ⟨hsegout, hsegnd'⟩ := hsegnd
    have hshape' : ∀ k ∈ kids ++ [mkKid slugify parentSlug parent t.name
        (kids.length + 1) ti], ∃ seg, '/' ∉ seg ∧
        k.path = parent.path ++ ['/'] ++ seg ∧ k.level = parent.level + 1 ∧
        k.slug = addSlashIfNeeded parentSlug ++ seg := by
      intro k hk
      rcases List.mem_append.mp hk with hh | hh
      · exact hshape k hh
      · rw [List.mem_singleton] at hh
        subst hh
        exact ⟨slugify ti, hsl, rfl, rfl, rfl⟩
    have hkp' : ((kids ++ [mkKid slugify parentSlug parent t.name
        (kids.length + 1) ti]).map (fun p => p.path)).Nodup := by
      rw [List.map_append]
      rw [List.nodup_append]
      refine ⟨hkp, List.nodup_singleton _, ?_⟩
      intro a ha hb
      rw [List.map_singleton, List.mem_singleton] at hb
      obtain ⟨k, hk, hkp2⟩ := List.mem_map.mp ha
      subst hb
      exact (hfresh ti (List.mem_cons_self ti ts') k hk) hkp2
    have hmax' : (((kids ++ [mkKid slugify parentSlug parent t.name
        (kids.length + 1) ti]).map (fun p => p.rank)).foldr max 0)
        = (kids ++ [mkKid slugify parentSlug parent t.name
            (kids.length + 1) ti]).length := by
      rw [List.map_append, List.foldr_append, List.map_singleton]
      simp only [List.foldr_cons, List.foldr_nil]
      rw [foldr_max_init, hmax]
      unfold mkKid
      simp
    have hts' : ∀ ti2 ∈ ts', trim ti2 = ti2 ∧ ti2 ≠ [] ∧ '/' ∉ slugify ti2 ∧
        (addSlashIfNeeded parentSlug ++ slugify ti2) ∉
          store0.map (fun p => p.slug) := by
      intro ti2 h2
      exact hts ti2 (List.mem_cons_of_mem ti h2)
    have hfresh' : ∀ ti2 ∈ ts', ∀ k ∈ kids ++ [mkKid slugify parentSlug parent t.name
        (kids.length + 1) ti], k.path ≠ parent.path ++ ['/'] ++ slugify ti2 := by
      intro ti2 h2 k hk
      rcases List.mem_append.mp hk with hh | hh
      · exact hfresh ti2 (List.mem_cons_of_mem ti h2) k hh
      · rw [List.mem_singleton] at hh
        subst hh
        unfold mkKid
        dsimp only
        intro hpeq
        have hseq : slugify ti = slugify ti2 := List.append_cancel_left hpeq
        exact hsegout (hseq ▸ List.mem_map_of_mem slugify h2)
    have hasc : (store0 ++ kids) ++ [mkKid slugify parentSlug parent t.name
        (kids.length + 1) ti] = store0 ++ (kids ++ [mkKid slugify parentSlug parent
          t.name (kids.length + 1) ti]) := by
      simp
    rw [hasc]
    rw [ih _ hshape' hkp' hmax' hts' hfresh' hsegnd']
    have hlen : (kids ++ [mkKid slugify parentSlug parent t.name
        (kids.length + 1) ti]).length + 1 = kids.length + 1 + 1 := by
      simp
    rw [hlen]
    simp [kidsFrom, List.append_assoc]

theorem kidsFrom_ranks (slugify : List Char → List Char) (parentSlug : List Char)
    (parent : Page) (tname : List Char) :
    ∀ (ts : List (List Char)) (r : Nat),
      (kidsFrom slugify parentSlug parent tname r ts).map (fun p => p.rank)
        = List.range' r ts.length := by
  intro ts
  induction ts with
  | nil => intro r; rfl
  | cons ti ts' ih =>
    intro r
    simp only [kidsFrom, List.map_cons, List.length_cons]
    rw [ih (r + 1)]
    rfl

/-- C8: rank allocation returns 1 plus the maximum rank among the parent's
    existing immediate children (1 when there are none); and inserting a batch
    of children sequentially under one parent — no concurrency, distinct
    resulting slugs, no pre-existing children — yields the ranks 1..N in
    insertion order. -/
theorem C8_rank_allocation :
    (∀ (store : List Page) (parent : Page),
      (store.map (fun p => p.path)).Nodup →
      (∀ p ∈ store, p.level = countSlash p.path) →
      getNextRank store parent =
        1 + ((store.filter (fun q =>
            (parent.path ++ ['/']).isPrefixOf q.path &&
            decide (parent.level < q.level) &&
            decide (q.level ≤ parent.level + 1))).map (fun p => p.rank)).foldr max 0) ∧
    (∀ (types : List PageType) (t : PageType)
       (perm : List Char → Option Page → Bool) (slugify : List Char → List Char)
       (parentSlug tn : List Char) (parent : Page) (store0 : List Page)
       (ts : List (List Char)),
      determineType types tn = some t →
      t.sanitize = none →
      getPage store0 parentSlug = some parent →
      perm (chars "add-page") (some parent) = true →
      (∀ q ∈ store0, ¬((parent.path ++ ['/']) <+: q.path ∧
          parent.level < q.level ∧ q.level ≤ parent.level + 1)) →
      (∀ ti ∈ ts, trim ti = ti ∧ ti ≠ [] ∧ '/' ∉ slugify ti ∧
          (addSlashIfNeeded parentSlug ++ slugify ti) ∉ store0.map (fun p => p.slug)) →
      (ts.map slugify).Nodup →
      insertSeq types perm slugify parentSlug tn store0 ts =
          ((kidsFrom slugify parentSlug parent t.name 1 ts).map Except.ok,
           store0 ++ kidsFrom slugify parentSlug parent t.name 1 ts) ∧
        (kidsFrom slugify parentSlug parent t.name 1 ts).map (fun p => p.rank)
          = List.range' 1 ts.length) := by
  constructor
  · intro store parent hnodup hlev
    exact getNextRank_eq store parent hnodup hlev
  · intro types t perm slugify parentSlug tn parent store0 ts
      hdt hsan hpg0 hperm hclean hts hsegnd
    constructor
    · have hgo := insertSeq_go types t perm slugify parentSlug tn parent store0
        hdt hsan hpg0 hperm hclean ts []
        (by intro k hk; cases hk) (by simp) (by simp) hts
        (by intro ti hti k hk; cases hk) hsegnd
      rw [List.append_nil] at hgo
      simpa using hgo
    · exact kidsFrom_ranks slugify parentSlug parent t.name ts 1

/-- Witness for C8: with home's two children at ranks 1 and 2 the next rank is
    3, and sequentially inserting two children under the leaf /c yields ranks
    1 and 2 in insertion order. -/
theorem C8_rank_allocation_witness :
    getNextRank exStore exHome = 3 ∧
    (kidsFrom id (chars "/c") exC (chars "default") 1
        [chars "k1", chars "k2"]).map (fun p => p.rank) = [1, 2] ∧
    (insertSeq defaultTypes permTrue id (chars "/c") (chars "default") exStore
        [chars "k1", chars "k2"]).2 =
      exStore ++ kidsFrom id (chars "/c") exC (chars "default") 1
        [chars "k1", chars "k2"] := by
  have h := C8_rank_allocation
  have h2 := h.2 defaultTypes ⟨chars "default", none⟩ permTrue id (chars "/c")
    (chars "default") exC exStore [chars "k1", chars "k2"]
    (by decide) rfl (by decide) rfl (by decide) (by decide) (by decide)
  refine ⟨?_, ?_, ?_⟩
  · rw [h.1 exStore exHome (by decide) (by decide)]
    decide
  · exact h2.2.trans (by decide)
  · rw [h2.1]

/-! ### getAncestors lemmas -/

theorem ancestorPathsAux_spec : ∀ (comps : List (List Char)) (full acc : List Char),
    (∀ e ∈ ancestorPathsAux full acc comps, acc <+: e ∧ e ≠ full) ∧
    (ancestorPathsAux full acc comps).Pairwise (fun a b => a ++ ['/'] <+: b) := by
  intro comps
  induction comps with
  | nil =>
    intro full acc
    constructor
    · intro e he; cases he
    · exact List.Pairwise.nil
  | cons comp rest ih =>
    intro full acc
    simp only [ancestorPathsAux]
    split
    · rename_i hfull
      obtain ⟨ihm, ihp⟩ := ih full (acc ++ comp)
      constructor
      · intro e he
        obtain ⟨h1, h2⟩ := ihm e he
        exact ⟨(List.prefix_append acc comp).trans h1, h2⟩
      · exact ihp
    · rename_i hfull
      obtain ⟨ihm, ihp⟩ := ih full (acc ++ comp ++ ['/'])
      constructor
      · intro e he
        rcases List.mem_cons.mp he with rfl | he2
        · exact ⟨List.prefix_append acc comp, hfull⟩
        · obtain ⟨h1, h2⟩ := ihm e he2
          refine ⟨?_, h2⟩
          exact ((List.prefix_append acc comp).trans (List.prefix_append _ ['/'])).trans h1
      · refine List.pairwise_cons.mpr ⟨?_, ihp⟩
        intro e he
        exact (ihm e he).1

theorem ancestorPaths_ne_full (full : List Char) :
    ∀ e ∈ ancestorPaths full, e ≠ full := by
  intro e he
  exact ((ancestorPathsAux_spec (splitSlash full) full []).1 e he).2

theorem ancestorPaths_chain (full : List Char) :
    (ancestorPaths full).Pairwise (fun a b => a ++ ['/'] <+: b) :=
  (ancestorPathsAux_spec (splitSlash full) full []).2

theorem countSlash_of_chain (a b : List Char) (h : a ++ ['/'] <+: b) :
    countSlash a < countSlash b := by
  obtain ⟨u, hu⟩ := h
  rw [← hu]
  unfold countSlash
  rw [List.append_assoc, List.count_append]
  simp [List.count_cons]

/-- C6: getAncestors on a page with a non-empty path returns exactly the
    stored pages whose path is one of the ancestor paths of the page's path,
    ordered as a strict ancestor chain — each entry's path extends the
    previous one at a '/' boundary, so levels strictly increase (root first) —
    and the page itself (its full path) is excluded. -/
theorem C6_getAncestors_spec (store : List Page) (page : Page)
    (hpath : page.path ≠ [])
    (hnodup : (store.map (fun p => p.path)).Nodup)
    (hlev : ∀ p ∈ store, p.level = countSlash p.path) :
    ∃ as, getAncestors store page = some as ∧
      (∀ q, q ∈ as ↔ q ∈ store ∧ q.path ∈ ancestorPaths page.path) ∧
      as.Pairwise (fun a b => a.path ++ ['/'] <+: b.path ∧ a.level < b.level) ∧
      (∀ q ∈ as, q.path ≠ page.path) := by
  unfold getAncestors
  rw [if_neg hpath]
  refine ⟨_, rfl, ?_, ?_, ?_⟩
  · intro q
    rw [(sortLe_perm _ _).mem_iff, List.mem_filter]
    simp
  · have hsorted := sortLe_pairwise (fun a b : Page => lexLe a.path b.path)
      (fun x y => lexLe_total x.path y.path)
      (fun x y z => lexLe_trans x.path y.path z.path)
      (store.filter (fun p => decide (p.path ∈ ancestorPaths page.path)))
    have hnd : ((sortLe (fun a b : Page => lexLe a.path b.path)
        (store.filter (fun p => decide (p.path ∈ ancestorPaths page.path)))).map
          (fun p => p.path)).Nodup := by
      rw [((sortLe_perm (fun a b : Page => lexLe a.path b.path)
        (store.filter (fun p => decide (p.path ∈ ancestorPaths page.path)))).map
          (fun p => p.path)).nodup_iff]
      exact ((List.filter_sublist store).map (fun p => p.path)).nodup hnodup
    have hne : (sortLe (fun a b : Page => lexLe a.path b.path)
        (store.filter (fun p => decide (p.path ∈ ancestorPaths page.path)))).Pairwise
          (fun a b => a.path ≠ b.path) := by
      rw [← List.pairwise_map]
      exact hnd
    have hmem : ∀ q ∈ sortLe (fun a b : Page => lexLe a.path b.path)
        (store.filter (fun p => decide (p.path ∈ ancestorPaths page.path))),
        q ∈ store ∧ q.path ∈ ancestorPaths page.path := by
      intro q hq
      rw [(sortLe_perm _ _).mem_iff, List.mem_filter] at hq
      simpa using hq
    refine ((hsorted.and hne).imp_of_mem ?_)
    intro a b ha hb hab
    obtain ⟨hlex, hnep⟩ := hab
    obtain ⟨has, hapath⟩ := hmem a ha
    obtain ⟨hbs, hbpath⟩ := hmem b hb
    have hcomp := pairwise_comparable (ancestorPaths_chain page.path)
      a.path hapath b.path hbpath
    have hchain : a.path ++ ['/'] <+: b.path := by
      rcases hcomp with hh | hh | hh
      · exact absurd hh hnep
      · exact hh
      · obtain ⟨u, hu⟩ := hh
        have happ : b.path ++ '/' :: u = a.path := by
          rw [← hu, List.append_assoc]
          rfl
        rw [← happ] at hlex
        have hcon := lexLe_append b.path ('/' :: u) hlex
        cases hcon
    refine ⟨hchain, ?_⟩
    rw [hlev a has, hlev b hbs]
    exact countSlash_of_chain a.path b.path hchain
  · intro q hq
    rw [(sortLe_perm _ _).mem_iff, List.mem_filter] at hq
    have := hq.2
    simp only [decide_eq_true_eq] at this
    exact ancestorPaths_ne_full page.path q.path this

/-- Witness for C6 at the grandchild /a/b: its ancestors are [home, /a], a
    strict chain with increasing level. -/
theorem C6_getAncestors_witness :
    getAncestors exStore exAB = some [exHome, exA] ∧
    (exHome.path ++ ['/'] <+: exA.path) ∧ exHome.level < exA.level := by
  obtain ⟨as, hsome, hmem, hpw, hexcl⟩ :=
    C6_getAncestors_spec exStore exAB (by decide) (by decide) (by decide)
  have heq : as = [exHome, exA] := by
    have h2 : some as = some [exHome, exA] := hsome.symm.trans (by decide)
    exact Option.some.inj h2
  subst heq
  refine ⟨hsome, ?_, ?_⟩
  · exact ((List.pairwise_cons.mp hpw).1 exA (List.mem_cons_self exA [])).1
  · exact ((List.pairwise_cons.mp hpw).1 exA (List.mem_cons_self exA [])).2

/-! ### buildForest lemmas -/

theorem lookupKids_append_left (k : List Char) :
    ∀ (l1 l2 : List (List Char × List (List Char))), k ∈ l1.map Prod.fst →
      lookupKids k (l1 ++ l2) = lookupKids k l1 := by
  intro l1
  induction l1 with
  | nil => intro l2 h; cases h
  | cons e rest ih =>
    intro l2 h
    obtain ⟨k2, v⟩ := e
    simp only [List.cons_append, lookupKids]
    split
    · rfl
    · rename_i hk2
      apply ih
      rw [List.map_cons, List.mem_cons] at h
      rcases h with hh | hh
      · exact absurd hh.symm hk2
      · exact hh

theorem lookupKids_isSome (k : List Char) (l : List (List Char × List (List Char))) :
    (lookupKids k l).isSome = true ↔ k ∈ l.map Prod.fst := by
  rw [Option.isSome_iff_ne_none]
  constructor
  · intro h
    by_contra hmem
    exact h ((lookupKids_none_iff l k).mpr hmem)
  · intro h hnone
    exact ((lookupKids_none_iff l k).mp hnone) h

theorem lookupKids_attachKid_self (pp cp : List Char) :
    ∀ l, pp ∈ l.map Prod.fst →
      ∃ cs, lookupKids pp l = some cs ∧
        lookupKids pp (attachKid pp cp l) = some (cs ++ [cp]) := by
  intro l
  induction l with
  | nil => intro h; cases h
  | cons e rest ih =>
    intro h
    obtain ⟨k2, v⟩ := e
    by_cases hk : k2 = pp
    · subst hk
      refine ⟨v, ?_, ?_⟩
      · simp [lookupKids]
      · simp [attachKid, lookupKids]
    · have hmem : pp ∈ rest.map Prod.fst := by
        rw [List.map_cons, List.mem_cons] at h
        rcases h with hh | hh
        · exact absurd hh.symm hk
        · exact hh
      obtain ⟨cs, h1, h2⟩ := ih hmem
      refine ⟨cs, ?_, ?_⟩
      · simp only [lookupKids, if_neg hk]
        exact h1
      · simp only [attachKid, if_neg hk, lookupKids]
        exact h2

theorem lookupKids_attachKid_other (pp cp k : List Char) (hk : k ≠ pp) :
    ∀ l, lookupKids k (attachKid pp cp l) = lookupKids k l := by
  intro l
  induction l with
  | nil => rfl
  | cons e rest ih =>
    obtain ⟨k2, v⟩ := e
    by_cases h2 : k2 = pp
    · subst h2
      have hne : ¬(k2 = k) := fun hh => hk hh.symm
      simp only [attachKid, if_pos rfl, lookupKids]
      rw [if_neg hne, if_neg hne]
    · simp only [attachKid, if_neg h2, lookupKids]
      split
      · rfl
      · exact ih

theorem buildForest_kids_mono : ∀ (todo : List Page) (st : Forest) (k cp : List Char),
    k ∈ st.kids.map Prod.fst → cp ∈ (lookupKids k st.kids).getD [] →
    cp ∈ (lookupKids k (buildForest todo st).kids).getD [] := by
  intro todo
  induction todo with
  | nil => intro st k cp _ h; exact h
  | cons p rest ih =>
    intro st k cp hmem hcp
    have hkeys0 : k ∈ (st.kids ++ [(p.path, [])]).map Prod.fst := by
      rw [List.map_append]
      exact List.mem_append.mpr (Or.inl hmem)
    have hlook0 : lookupKids k (st.kids ++ [(p.path, [])]) = lookupKids k st.kids :=
      lookupKids_append_left k st.kids [(p.path, [])] hmem
    simp only [buildForest]
    split
    · by_cases hk : k = parentPath p.path
      · subst hk
        obtain ⟨cs, h1, h2⟩ :=
          lookupKids_attachKid_self (parentPath p.path) p.path _ hkeys0
        apply ih
        · rw [attachKid_keys]
          exact hkeys0
        · rw [h2]
          simp only [Option.getD_some]
          apply List.mem_append.mpr
          left
          rw [hlook0] at h1
          rw [h1] at hcp
          simpa using hcp
      · apply ih
        · rw [attachKid_keys]
          exact hkeys0
        · rw [lookupKids_attachKid_other (parentPath p.path) p.path k hk, hlook0]
          exact hcp
    · apply ih
      · exact hkeys0
      · rw [hlook0]
        exact hcp

theorem buildForest_roots_mono : ∀ (todo : List Page) (st : Forest) (x : List Char),
    x ∈ st.roots → x ∈ (buildForest todo st).roots := by
  intro todo
  induction todo with
  | nil => intro st x h; exact h
  | cons p rest ih =>
    intro st x h
    simp only [buildForest]
    split
    · exact ih _ x h
    · exact ih _ x (List.mem_append.mpr (Or.inl h))

theorem buildForest_attach : ∀ (pre : List Page) (q : Page) (post : List Page) (st : Forest),
    parentPath q.path ≠ q.path →
    parentPath q.path ∈ st.kids.map Prod.fst ++ pre.map (fun p => p.path) →
    q.path ∈ (lookupKids (parentPath q.path)
      (buildForest (pre ++ q :: post) st).kids).getD [] := by
  intro pre
  induction pre with
  | nil =>
    intro q post st hne hin
    rw [List.map_nil, List.append_nil] at hin
    simp only [List.nil_append, buildForest]
    have hkeys0 : parentPath q.path ∈ (st.kids ++ [(q.path, [])]).map Prod.fst := by
      rw [List.map_append]
      exact List.mem_append.mpr (Or.inl hin)
    have hsome : (lookupKids (parentPath q.path) (st.kids ++ [(q.path, [])])).isSome = true :=
      (lookupKids_isSome _ _).mpr hkeys0
    rw [if_pos hsome]
    obtain ⟨cs, h1, h2⟩ :=
      lookupKids_attachKid_self (parentPath q.path) q.path _ hkeys0
    apply buildForest_kids_mono
    · rw [attachKid_keys]
      exact hkeys0
    · rw [h2]
      simp
  | cons p pre' ih =>
    intro q post st hne hin
    simp only [List.cons_append, buildForest]
    have htrans : parentPath q.path ∈
        (st.kids ++ [(p.path, [])]).map Prod.fst ++ pre'.map (fun p => p.path) := by
      rcases List.mem_append.mp hin with hh | hh
      · exact List.mem_append.mpr (Or.inl (by
          rw [List.map_append]
          exact List.mem_append.mpr (Or.inl hh)))
      · rw [List.map_cons, List.mem_cons] at hh
        rcases hh with h3 | h3
        · refine List.mem_append.mpr (Or.inl ?_)
          rw [List.map_append]
          refine List.mem_append.mpr (Or.inr ?_)
          simp [h3]
        · exact List.mem_append.mpr (Or.inr h3)
    split
    · exact ih q post _ hne (by rw [attachKid_keys]; exact htrans)
    · exact ih q post _ hne htrans

theorem buildForest_root : ∀ (pre : List Page) (q : Page) (post : List Page) (st : Forest),
    parentPath q.path ≠ q.path →
    parentPath q.path ∉ st.kids.map Prod.fst ++ pre.map (fun p => p.path) →
    q.path ∈ (buildForest (pre ++ q :: post) st).roots := by
  intro pre
  induction pre with
  | nil =>
    intro q post st hne hout
    rw [List.map_nil, List.append_nil] at hout
    simp only [List.nil_append, buildForest]
    have hnone : lookupKids (parentPath q.path) (st.kids ++ [(q.path, [])]) = none := by
      rw [lookupKids_none_iff, List.map_append]
      intro hmem
      rcases List.mem_append.mp hmem with hh | hh
      · exact hout hh
      · simp only [List.map_cons, List.map_nil, List.mem_singleton] at hh
        exact hne hh
    rw [hnone]
    rw [if_neg (by simp)]
    apply buildForest_roots_mono
    exact List.mem_append.mpr (Or.inr (List.mem_singleton.mpr rfl))
  | cons p pre' ih =>
    intro q post st hne hout
    simp only [List.cons_append, buildForest]
    have htrans : parentPath q.path ∉
        (st.kids ++ [(p.path, [])]).map Prod.fst ++ pre'.map (fun p => p.path) := by
      intro hmem
      apply hout
      rcases List.mem_append.mp hmem with hh | hh
      · rw [List.map_append] at hh
        rcases List.mem_append.mp hh with h3 | h3
        · exact List.mem_append.mpr (Or.inl h3)
        · simp only [List.map_cons, List.map_nil, List.mem_singleton] at h3
          refine List.mem_append.mpr (Or.inr ?_)
          rw [List.map_cons]
          exact List.mem_cons.mpr (Or.inl h3)
      · refine List.mem_append.mpr (Or.inr ?_)
        rw [List.map_cons]
        exact List.mem_cons.mpr (Or.inr hh)
    split
    · exact ih q post _ hne (by rw [attachKid_keys]; exact htrans)
    · exact ih q post _ hne htrans

theorem levelRankLe_total : ∀ a b : Page, levelRankLe a b = true ∨ levelRankLe b a = true := by
  intro a b
  unfold levelRankLe
  simp only [Bool.or_eq_true, Bool.and_eq_true, decide_eq_true_eq]
  omega

theorem levelRankLe_trans : ∀ a b c : Page,
    levelRankLe a b = true → levelRankLe b c = true → levelRankLe a c = true := by
  intro a b c
  unfold levelRankLe
  simp only [Bool.or_eq_true, Bool.and_eq_true, decide_eq_true_eq]
  omega

theorem parentPath_ne (l : List Char) (h : '/' ∈ l) : parentPath l ≠ l := by
  obtain ⟨hdec, -⟩ := parentPath_decomp l h
  intro heq
  have hlen := congrArg List.length hdec
  rw [heq] at hlen
  simp at hlen

/-- C5: getDescendants returns exactly the pages whose path extends the given
    page's path at a '/' boundary with level in (page.level, page.level +
    depth], ordered by level then rank, and nests them correctly: a returned
    page whose parent path (its own path minus the final segment) belongs to
    a returned page ends up in that page's children list, and one whose
    parent path is absent from the result set ends up at the top level of the
    returned forest. -/
theorem C5_getDescendants_spec (store : List Page) (page : Page) (depth : Nat)
    (hnodup : (store.map (fun p => p.path)).Nodup)
    (hlev : ∀ p ∈ store, p.level = countSlash p.path) :
    (∀ q, q ∈ descendantsQuery store page depth ↔
      q ∈ store ∧ (page.path ++ ['/'] <+: q.path) ∧
        page.level < q.level ∧ q.level ≤ page.level + depth) ∧
    (descendantsQuery store page depth).Pairwise
      (fun a b => a.level < b.level ∨ (a.level = b.level ∧ a.rank ≤ b.rank)) ∧
    (∀ q ∈ descendantsQuery store page depth,
      ((∃ p ∈ descendantsQuery store page depth, p.path = parentPath q.path) →
        q.path ∈ (lookupKids (parentPath q.path)
          (getDescendants store page depth).2.kids).getD []) ∧
      ((¬ ∃ p ∈ descendantsQuery store page depth, p.path = parentPath q.path) →
        q.path ∈ (getDescendants store page depth).2.roots)) := by
  have hsorted : (descendantsQuery store page depth).Pairwise
      (fun a b => levelRankLe a b = true) :=
    sortLe_pairwise levelRankLe levelRankLe_total levelRankLe_trans _
  refine ⟨mem_descendantsQuery store page depth, ?_, ?_⟩
  · apply hsorted.imp
    intro a b hab
    simp only [levelRankLe, Bool.or_eq_true, Bool.and_eq_true, decide_eq_true_eq] at hab
    exact hab
  · intro q hq
    obtain ⟨hqstore, hqpre, hql1, hql2⟩ := (mem_descendantsQuery store page depth q).mp hq
    have hslash : '/' ∈ q.path := by
      obtain ⟨tt, htt⟩ := hqpre
      rw [← htt]
      simp
    have hne := parentPath_ne q.path hslash
    obtain ⟨pre, post, hsplit⟩ := List.append_of_mem hq
    constructor
    · rintro ⟨p, hp, hpp⟩
      have hpmem := (mem_descendantsQuery store page depth p).mp hp
      obtain ⟨hpstore, hppre2, hpl1, hpl2⟩ := hpmem
      have hppre : p ∈ pre := by
        have hpq : p ≠ q := by
          intro heq
          rw [heq] at hpp
          exact hne hpp.symm
        have hpR := hp
        rw [hsplit] at hpR
        rcases List.mem_append.mp hpR with hh | hh
        · exact hh
        · rcases List.mem_cons.mp hh with h3 | h3
          · exact absurd h3 hpq
          · exfalso
            have hpw := hsorted
            rw [hsplit] at hpw
            have hqp : levelRankLe q p = true :=
              (List.pairwise_cons.mp (List.pairwise_append.mp hpw).2.1).1 p h3
            simp only [levelRankLe, Bool.or_eq_true, Bool.and_eq_true,
              decide_eq_true_eq] at hqp
            have hq' := hlev q hqstore
            have hp' := hlev p hpstore
            have hcount := countSlash_parentPath q.path hslash
            rw [hpp] at hp'
            omega
      have hinpre : parentPath q.path ∈ pre.map (fun p => p.path) := by
        rw [← hpp]
        exact List.mem_map_of_mem (fun p => p.path) hppre
      show q.path ∈ (lookupKids (parentPath q.path)
        (buildForest (descendantsQuery store page depth) ⟨[], []⟩).kids).getD []
      rw [hsplit]
      exact buildForest_attach pre q post ⟨[], []⟩ hne (by simpa using hinpre)
    · intro hnex
      have hout : parentPath q.path ∉ pre.map (fun p => p.path) := by
        intro hmem
        obtain ⟨p, hppre, hppath⟩ := List.mem_map.mp hmem
        refine hnex ⟨p, ?_, hppath⟩
        rw [hsplit]
        exact List.mem_append.mpr (Or.inl hppre)
      show q.path ∈ (buildForest (descendantsQuery store page depth) ⟨[], []⟩).roots
      rw [hsplit]
      exact buildForest_root pre q post ⟨[], []⟩ hne (by simpa using hout)

theorem C5_getDescendants_spec_witness :
    (exStore.map (fun p => p.path)).Nodup ∧
    (∀ p ∈ exStore, p.level = countSlash p.path) ∧
    exAB.path ∈ (lookupKids (parentPath exAB.path)
      (getDescendants exStore exHome 2).2.kids).getD [] ∧
    exC.path ∈ (getDescendants exStore exHome 2).2.roots := by
  refine ⟨by decide, by decide, ?_, ?_⟩
  · exact ((C5_getDescendants_spec exStore exHome 2 (by decide) (by decide)).2.2
      exAB (by decide)).1 ⟨exA, by decide, by decide⟩
  · exact ((C5_getDescendants_spec exStore exHome 2 (by decide) (by decide)).2.2
      exC (by decide)).2 (by decide)

/-- C3: counterexample to the original claim. Renaming the leaf page '/c' to
    '/c/d' is a reachable slug-changing rename with zero descendants (no
    stored slug extends '/c/'), so the claim demands zero cascade writes and
    final slug '/c/d'. The handler instead issues one cascade write: putPage
    runs before updateDescendants, so the renamed page itself (now '/c/d')
    matches the '/c/' prefix query and is rewritten once more, leaving it at
    the mangled slug '/c/d/d'. -/
theorem C3_cascade_counterexample :
    exStore.filter (fun d => (chars "/c" ++ ['/']).isPrefixOf d.slug) = [] ∧
    (editHandler defaultTypes permTrue (fun l => l) exStore [] (chars "/c")
        (chars "/c/d") (chars "C") (chars "default")).result =
      Except.ok { exC with slug := chars "/c/d" } ∧
    (editHandler defaultTypes permTrue (fun l => l) exStore [] (chars "/c")
        (chars "/c/d") (chars "C") (chars "default")).writes =
      [(chars "/c/d", chars "/c/d/d")] ∧
    (editHandler defaultTypes permTrue (fun l => l) exStore [] (chars "/c")
        (chars "/c/d") (chars "C") (chars "default")).store =
      [exHome, exA, exAB, { exC with slug := chars "/c/d/d" }] := by
  decide
